import Mathlib

/-!
# UFOArray: a class-partitioned key/value store with a text format

Shallow embedding of `src/ufo_array.h` (template class `UFOArray<T>`).

* A `std::string` is a Lean `String`; its characters stand for the bytes of the
  C++ string, and offsets are positions in `String.data`.
* A `std::map<std::string, V>` is the list of its nodes in iteration order
  (`StdMap V`); `StdMap.assign` is `m[k] = v`, `StdMap.at` is the checked
  lookup `m.at(k)`.
* `size_t` is `Nat` with explicit reduction modulo `2 ^ 64`.
* A C++ exception is a value of `Exn`; a throwing member function returns
  `Except Exn _`.
* The value type `T` of the template is a type with the two stream operators
  the class uses (`Streamable T`).
-/

namespace UFO

/-! ## Exceptions -/

/-- The two exception classes the header throws, with their `what()` text. -/
inductive Exn where
  | runtime_error (what : String)
  | out_of_range (what : String)
  deriving DecidableEq, Repr

/-- Whether the exception is a `std::runtime_error` (the spec's NotFound and IOError kinds). -/
def Exn.isRuntimeError : Exn → Bool
  | .runtime_error _ => true
  | .out_of_range _ => false

/-- Whether the exception is a `std::out_of_range` (the spec's IndexOutOfRange kind). -/
def Exn.isOutOfRange : Exn → Bool
  | .runtime_error _ => false
  | .out_of_range _ => true

deriving instance DecidableEq for Except

/-! ## std::string operations used by the header -/

/-- The value `std::string::npos`, the largest `size_t`. -/
def npos : Nat := 2 ^ 64 - 1

/-- Subtraction of `size_t` values, wrapping modulo `2 ^ 64`. -/
def subSizeT (a b : Nat) : Nat := (a + 2 ^ 64 - b % 2 ^ 64) % 2 ^ 64

/-- Offset of the first occurrence of `c` in a character list, if any. -/
def findIdx : List Char → Char → Option Nat
  | [], _ => none
  | x :: xs, c => if x = c then some 0 else (findIdx xs c).map (· + 1)

/-- The call `line.find(c)` for a one-character needle: offset of the first occurrence, or
`npos`. -/
def find (line : String) (c : Char) : Nat :=
  (findIdx line.data c).getD npos

/-- The call `line.substr(pos, len)`: throws `std::out_of_range` when `pos > size()`, otherwise
the characters from `pos` on, at most `len` of them (the count is clamped to the rest). -/
def substr (line : String) (pos len : Nat) : Except Exn String :=
  if pos > line.data.length then .error (.out_of_range "basic_string::substr")
  else .ok ⟨(line.data.drop pos).take (min len (line.data.length - pos))⟩

/-- The lines `std::getline` delivers from a stream holding the given characters: each line ends
at a newline, which is dropped; characters after the last newline form a last line when there are
any. -/
def getlinesAux : List Char → List Char → List (List Char)
  | acc, [] => if acc = [] then [] else [acc.reverse]
  | acc, c :: cs => if c = '\n' then acc.reverse :: getlinesAux [] cs else getlinesAux (c :: acc) cs

/-- The successive results of `std::getline(inFile, line)` on a file with the given text. -/
def getlines (text : String) : List String :=
  (getlinesAux [] text.data).map String.mk

/-- The predicate `std::isspace` of the classic locale. -/
def isspace (c : Char) : Bool :=
  c = ' ' || c = '\t' || c = '\n' || c = '\x0b' || c = '\x0c' || c = '\r'

/-- The comparison of `std::char_traits<char>::compare` followed by the length tie-break, as
`operator<` on `std::string` does it: the first differing character decides, and a proper prefix
is smaller. -/
def lessChars : List Char → List Char → Bool
  | _, [] => false
  | [], _ :: _ => true
  | a :: as, b :: bs => if a < b then true else if b < a then false else lessChars as bs

/-- The order `std::less<std::string>` of the map keys. -/
def less (a b : String) : Bool := lessChars a.data b.data

/-! ## The value type -/

/-- The stream operators the template needs from its value type `T`:
`write` is `os << value`, `read` is `T value; iss >> value; return value;` on a stream holding the
given text. -/
class Streamable (T : Type) where
  write : T → String
  read : String → T

/-- For `T = std::string`: insertion writes the characters; extraction skips leading whitespace and
takes the characters up to the next whitespace (the empty string when there is none). -/
instance : Streamable String where
  write v := v
  read str := ⟨(str.data.dropWhile isspace).takeWhile (fun c => !isspace c)⟩

/-! ## std::map -/

/-- A `std::map<std::string, V>`: its nodes in iteration order. -/
abbrev StdMap (V : Type) := List (String × V)

namespace StdMap

variable {V : Type}

/-- The call `m.find(k)`: the mapped value of the node with key `k`, `none` for `end()`. -/
def find : StdMap V → String → Option V
  | [], _ => none
  | (k', v) :: rest, k => if k' = k then some v else find rest k

/-- The call `m.at(k)`: throws `std::out_of_range` when there is no node with key `k` (the
`what()` text is the library's own; `map::at` is the one of libstdc++). -/
def «at» (m : StdMap V) (k : String) : Except Exn V :=
  match m.find k with
  | some v => .ok v
  | none => .error (.out_of_range "map::at")

/-- The statement `m[k] = v`: the node with key `k` gets the value `v`; when there is none, a new
node is linked in at its place in the key order. -/
def assign : StdMap V → String → V → StdMap V
  | [], k, v => [(k, v)]
  | (k', v') :: rest, k, v =>
    if less k k' then (k, v) :: (k', v') :: rest
    else if less k' k then (k', v') :: assign rest k v
    else (k', v) :: rest

/-- The expression `m[k]` read as a value: the mapped value, a default-constructed one when the
node had to be created. -/
def index [Inhabited V] (m : StdMap V) (k : String) : V :=
  (m.find k).getD default

/-- The keys are strictly ascending in iteration order. -/
def Sorted (m : StdMap V) : Prop :=
  List.Pairwise (fun a b => less a.1 b.1 = true) m

end StdMap

/-! ## The class -/

/-- The data members of `UFOArray<T>`. -/
structure UFOArray (T : Type) where
  data : StdMap (StdMap T) := []
  class_name : String := ""
  deriving DecidableEq, Repr

variable {T : Type}

/-- The default constructor. -/
def UFOArray.new : UFOArray T := { data := [], class_name := "" }

/-- Member `setClassName`. -/
def setClassName (className : String) (self : UFOArray T) : UFOArray T :=
  { self with class_name := className }

/-- Member `add(key, value)`: `data[class_name][key] = value`. -/
def add (key : String) (value : T) (self : UFOArray T) : UFOArray T :=
  { self with
    data := self.data.assign self.class_name
      ((StdMap.index self.data self.class_name).assign key value) }

/-- The variadic `add(key, value, args...)`: the pairs are added left to right. -/
def addAll (args : List (String × T)) (self : UFOArray T) : UFOArray T :=
  args.foldl (fun s kv => add kv.1 kv.2 s) self

/-- The loop of `toString`: each node is written as tab, quoted key, colon, blank, value, and
a comma and newline follow when the node is not the last one. -/
def toStringLoop [Streamable T] (result : String) : List (String × T) → String
  | [] => result
  | (k, v) :: rest =>
    let result := result ++ "\t\"" ++ k ++ "\": " ++ Streamable.write v
    let result := if rest.isEmpty then result else result ++ ",\n"
    toStringLoop result rest

/-- Member `toString`. The checked lookup `data.at(class_name)` throws for an absent class. -/
def toString [Streamable T] (self : UFOArray T) : Except Exn String := do
  let result := "(" ++ self.class_name ++ ")\n" ++ "\x7b\n"
  let m ← self.data.at self.class_name
  let result := toStringLoop result m
  pure (result ++ "\n\x7d")

/-- Member `save`, on a file given by its previous text (`none`: the file cannot be opened for
writing). The result is the text of the file after the call. -/
def save [Streamable T] (file : Option String) (append : Bool) (self : UFOArray T) :
    Except Exn String :=
  match file with
  | none => .error (.runtime_error "Невозможно открыть файл для записи")
  | some old => do
    let block ← toString self
    pure ((if append then old else "") ++ block ++ "\n")

/-- One iteration of the `while (std::getline(inFile, line))` loop of `load`, on the pair of
`data` and the local `currentClass`. -/
def loadLine [Streamable T] (st : StdMap (StdMap T) × String) (line : String) :
    Except Exn (StdMap (StdMap T) × String) :=
  if find line '(' ≠ npos then do
    let currentClass ← substr line 1 (subSizeT (find line ')') 1)
    pure (st.1, currentClass)
  else if find line ':' ≠ npos ∧ st.2 ≠ "" then do
    let pos := find line ':'
    let key ← substr line 1 (subSizeT pos 3)
    let rest ← substr line (pos + 1) npos
    let value : T := Streamable.read rest
    pure (st.1.assign st.2 ((StdMap.index st.1 st.2).assign key value), st.2)
  else pure st

/-- The loop of `load` over the lines of the file. -/
def loadLines [Streamable T] (st : StdMap (StdMap T) × String) :
    List String → Except Exn (StdMap (StdMap T) × String)
  | [] => pure st
  | line :: rest => do
    let st ← loadLine st line
    loadLines st rest

/-- Member `load`, on a file given by its text (`none`: the file cannot be opened for reading). -/
def load [Streamable T] (file : Option String) (self : UFOArray T) : Except Exn (UFOArray T) :=
  match file with
  | none => .error (.runtime_error "Невозможно открыть файл для чтения")
  | some text => do
    let st ← loadLines (([] : StdMap (StdMap T)), "") (getlines text)
    pure { self with data := st.1 }

/-- Member `getAllByClass`. -/
def getAllByClass (className : String) (self : UFOArray T) : Except Exn (StdMap T) :=
  match self.data.find className with
  | some m => .ok m
  | none => .error (.runtime_error "Класс не найден")

/-- Member `getFirstByClass`. -/
def getFirstByClass (className : String) (self : UFOArray T) : Except Exn (String × T) :=
  match self.data.find className with
  | some (p :: _) => .ok p
  | _ => .error (.runtime_error "Нет элементов для извлечения")

/-- Member `getLastByClass`. -/
def getLastByClass (className : String) (self : UFOArray T) : Except Exn (String × T) :=
  match self.data.find className with
  | some (p :: rest) => .ok ((p :: rest).getLast (List.cons_ne_nil p rest))
  | _ => .error (.runtime_error "Нет элементов для извлечения")

/-- Member `getByIndexAndClass`. -/
def getByIndexAndClass (className : String) (index : Nat) (self : UFOArray T) :
    Except Exn (String × T) :=
  match self.data.find className with
  | some m =>
    match m[index]? with
    | some p => .ok p
    | none => .error (.out_of_range "Индекс вне диапазона или класс не найден")
  | none => .error (.out_of_range "Индекс вне диапазона или класс не найден")

/-! ## The representation invariant and the reachable stores -/

/-- The invariant of the nested map: the class names are strictly ascending, and so are the keys
of every class. -/
def DataWF (d : StdMap (StdMap T)) : Prop :=
  StdMap.Sorted d ∧ ∀ p ∈ d, StdMap.Sorted p.2

/-- The stores a program can build: from the default constructor by `setClassName`, `add` and
`load`. -/
inductive Reachable [Streamable T] : UFOArray T → Prop
  | new : Reachable UFOArray.new
  | setClassName (className : String) {s : UFOArray T} :
      Reachable s → Reachable (setClassName className s)
  | add (key : String) (value : T) {s : UFOArray T} : Reachable s → Reachable (add key value s)
  | load (file : Option String) {s s' : UFOArray T} :
      Reachable s → load file s = .ok s' → Reachable s'

/-! ## The reference rendering of the specification -/

/-- The line of one entry as the spec writes it: tab, quoted key, colon, blank, value text. -/
def renderEntry [Streamable T] (p : String × T) : String :=
  "\t\"" ++ p.1 ++ "\": " ++ Streamable.write p.2

/-- The block of a category as the spec writes it: the header line, an opening brace line, the
entry lines joined by a comma and a newline, and a closing brace without a newline after it. -/
def renderRef [Streamable T] (name : String) (m : List (String × T)) : String :=
  "(" ++ name ++ ")\n\x7b\n" ++ String.intercalate ",\n" (m.map renderEntry) ++ "\n\x7d"

/-! ## The scenario of the specification -/

/-- The store of the concrete scenario: class `Animals` with `cat` and `dog`. -/
def animals : UFOArray String :=
  add "dog" "3" (add "cat" "4" (setClassName "Animals" UFOArray.new))

/-- The same scenario with the two keys inserted in descending order. -/
def animalsRev : UFOArray String :=
  add "cat" "4" (add "dog" "3" (setClassName "Animals" UFOArray.new))

/-! ## The saved text as a list of lines -/

/-- A text the format can carry: free of colon, parentheses and newline, and short enough for its
line to be addressed by `size_t` offsets below `npos`. -/
def Plain (s : String) : Prop :=
  s.data.length + 4 ≤ npos ∧ ∀ ch ∈ s.data, ch ≠ ':' ∧ ch ≠ '(' ∧ ch ≠ ')' ∧ ch ≠ '\n'

instance (s : String) : Decidable (Plain s) := by
  unfold Plain
  exact inferInstance

/-- The text of a file whose lines are the given ones, each ended by a newline. -/
def linesOf : List (List Char) → List Char
  | [] => []
  | l :: ls => l ++ '\n' :: linesOf ls

/-- The lines between the braces of a saved block: one per entry, all but the last with a comma
at the end; a block without entries has one empty line there. -/
def entryLines [Streamable T] : List (String × T) → List (List Char)
  | [] => [[]]
  | [p] => [(renderEntry p).data]
  | p :: q :: r => ((renderEntry p).data ++ [',']) :: entryLines (q :: r)

/-- The lines of a saved block: header, opening brace, entry lines, closing brace. -/
def blockLines [Streamable T] (name : String) (m : List (String × T)) : List (List Char) :=
  ('(' :: name.data ++ [')']) :: ['\x7b'] :: (entryLines m ++ [['\x7d']])

/-- The scenario of a round trip: `save` to a new file, then `load` of that file into a freshly
constructed store. -/
def saveThenLoad [Streamable T] (s : UFOArray T) : Except Exn (UFOArray T) := do
  let text ← save (some "") true s
  load (some text) UFOArray.new

/-- The scenario of two saves in append mode to a new file, first with `c1` and then with `c2`
as the current class, followed by `load` of that file into a freshly constructed store. -/
def saveTwoThenLoad [Streamable T] (c1 c2 : String) (s : UFOArray T) :
    Except Exn (UFOArray T) := do
  let text1 ← save (some "") true (setClassName c1 s)
  let text2 ← save (some text1) true (setClassName c2 s)
  load (some text2) UFOArray.new

/-- A store whose only class has the empty name: `add` without a `setClassName` before it. -/
def unnamed : UFOArray String :=
  add "cat" "4" UFOArray.new

/-- A store with the two classes `Trees` and `Pets`. -/
def twoClasses : UFOArray String :=
  add "dog" "3" (setClassName "Pets" (add "oak" "7" (setClassName "Trees" UFOArray.new)))

/-- A store with two classes, one of them with the empty name. -/
def twoClassesUnnamed : UFOArray String :=
  add "dog" "3" (setClassName "Pets" (add "oak" "7" UFOArray.new))

/-! ## Entries of the nested map -/

/-- The value stored for key `k` of class `c`, if the class and the key are there:
`data.find(c)` followed by `find(k)` in the class. -/
def lookup (d : StdMap (StdMap T)) (c k : String) : Option T :=
  (StdMap.find d c).bind (fun m => StdMap.find m k)

/-! ## The data lines of a file, last value wins -/

/-- The characters `line.substr(pos, len)` returns when `pos` is inside the line. -/
def substrChars (line : String) (pos len : Nat) : String :=
  ⟨(line.data.drop pos).take (min len (line.data.length - pos))⟩

/-- The data lines of a file in file order, as `load` reads them: every line without an opening
parenthesis that has a colon and is read while a non-empty class is active gives the active
class, the key and the value that `load` takes from the line. A line with an opening parenthesis
makes the class it names the active one; `cur` is the class active before the first line. -/
def dataEntries [Streamable T] (cur : String) : List String → List (String × String × T)
  | [] => []
  | line :: rest =>
    if find line '(' ≠ npos then
      dataEntries (substrChars line 1 (subSizeT (find line ')') 1)) rest
    else if find line ':' ≠ npos ∧ cur ≠ "" then
      (cur, substrChars line 1 (subSizeT (find line ':') 3),
        Streamable.read (substrChars line (find line ':' + 1) npos)) :: dataEntries cur rest
    else dataEntries cur rest

/-- Last value wins: the value of the last entry of the list for key `k` of class `c`, if there
is an entry for them. -/
def lastValue : List (String × String × T) → String → String → Option T
  | [], _, _ => none
  | e :: rest, c, k =>
    match lastValue rest c k with
    | some v => some v
    | none => if e.1 = c ∧ e.2.1 = k then some e.2.2 else none

/-- A file with two blocks for the class `A` and one for `B` between them. -/
def mergeText : String :=
  "(A)\n\x7b\n\t\"cat\": 1\n\x7d\n" ++ "(B)\n\x7b\n\t\"cat\": 5\n\x7d\n" ++
    "(A)\n\x7b\n\t\"cat\": 2\n\t\"dog\": 3\n\x7d\n"

/-! ## The class name of a header line -/

/-- The class name `load` takes from a header line, described by the place of the first closing
parenthesis: when the line starts with a closing parenthesis, everything after that first
character; otherwise the characters after the first one up to the first closing parenthesis, or
up to the end of the line when there is none. -/
def headerName : List Char → List Char
  | [] => []
  | x :: tl => if x = ')' then tl else tl.takeWhile (fun ch => ch ≠ ')')

/-! ## The key order is a strict total order -/

theorem lessChars_irrefl (a : List Char) : lessChars a a = false := by
  induction a with
  | nil => rfl
  | cons x xs ih => simp [lessChars, ih]

theorem lessChars_trans : ∀ (a b c : List Char),
    lessChars a b = true → lessChars b c = true → lessChars a c = true
  | _, [], _, h, _ => by cases ‹List Char› <;> simp [lessChars] at h
  | _, _ :: _, [], _, h => by simp [lessChars] at h
  | [], _ :: _, _ :: _, _, _ => by simp [lessChars]
  | x :: xs, y :: ys, z :: zs, h1, h2 => by
    simp only [lessChars] at h1 h2 ⊢
    rcases lt_trichotomy x y with hxy | hxy | hxy
    · rcases lt_trichotomy y z with hyz | hyz | hyz
      · simp [lt_trans hxy hyz]
      · subst hyz; simp [hxy]
      · simp [hyz, lt_asymm hyz] at h2
    · subst hxy
      rcases lt_trichotomy x z with hxz | hxz | hxz
      · simp [hxz]
      · subst hxz
        simp only [lt_irrefl, if_false] at h1 h2 ⊢
        exact lessChars_trans xs ys zs h1 h2
      · simp [hxz, lt_asymm hxz] at h2
    · simp [hxy, lt_asymm hxy] at h1

theorem lessChars_total : ∀ (a b : List Char),
    lessChars a b = false → lessChars b a = false → a = b
  | [], [], _, _ => rfl
  | [], _ :: _, h, _ => by simp [lessChars] at h
  | _ :: _, [], _, h => by simp [lessChars] at h
  | x :: xs, y :: ys, h1, h2 => by
    simp only [lessChars] at h1 h2
    rcases lt_trichotomy x y with hxy | hxy | hxy
    · simp [hxy] at h1
    · subst hxy
      simp only [lt_irrefl, if_false] at h1 h2
      rw [lessChars_total xs ys h1 h2]
    · simp [hxy] at h2

theorem less_irrefl (a : String) : less a a = false := lessChars_irrefl a.data

theorem less_trans {a b c : String} (h1 : less a b = true) (h2 : less b c = true) :
    less a c = true := lessChars_trans _ _ _ h1 h2

theorem less_total {a b : String} (h1 : less a b = false) (h2 : less b a = false) : a = b := by
  cases a; cases b
  simp only [less] at h1 h2
  rw [lessChars_total _ _ h1 h2]

theorem less_ne {a b : String} (h : less a b = true) : a ≠ b := by
  intro e; subst e; rw [less_irrefl] at h; cases h

theorem less_asymm {a b : String} (h : less a b = true) : less b a = false := by
  cases hba : less b a with
  | false => rfl
  | true => have := less_trans h hba; rw [less_irrefl] at this; cases this

/-! ## Lemmas on the map model -/

namespace StdMap

variable {V : Type}

theorem assign_cons_lt {k kq : String} (vq : V) (rest : StdMap V) (v : V)
    (h : less k kq = true) : assign ((kq, vq) :: rest) k v = (k, v) :: (kq, vq) :: rest := by
  simp [assign, h]

theorem assign_cons_gt {k kq : String} (vq : V) (rest : StdMap V) (v : V)
    (h : less kq k = true) : assign ((kq, vq) :: rest) k v = (kq, vq) :: assign rest k v := by
  simp [assign, h, less_asymm h]

theorem assign_cons_eq (k : String) (vq : V) (rest : StdMap V) (v : V) :
    assign ((k, vq) :: rest) k v = (k, v) :: rest := by
  simp [assign, less_irrefl]

/-- The three ways a key compares with the key of a node. -/
theorem less_cases (k kq : String) : less k kq = true ∨ less kq k = true ∨ k = kq := by
  cases h1 : less k kq with
  | true => exact Or.inl rfl
  | false =>
    cases h2 : less kq k with
    | true => exact Or.inr (Or.inl rfl)
    | false => exact Or.inr (Or.inr (less_total h1 h2))

theorem find_assign (m : StdMap V) (k : String) (v : V) (k' : String) :
    find (assign m k v) k' = if k = k' then some v else find m k' := by
  induction m with
  | nil => simp [assign, find]
  | cons p rest ih =>
    obtain ⟨kp, vp⟩ := p
    rcases less_cases k kp with h | h | h
    · rw [assign_cons_lt _ _ _ h]; simp [find]
    · rw [assign_cons_gt _ _ _ h]
      have hne : kp ≠ k := less_ne h
      simp only [find, ih]
      by_cases e : kp = k'
      · subst e
        have hne2 : ¬ k = kp := fun h => hne h.symm
        simp [hne2]
      · simp [e]
    · subst h
      rw [assign_cons_eq]
      simp only [find]
      by_cases e : k = k' <;> simp [e]

theorem find_assign_self (m : StdMap V) (k : String) (v : V) :
    find (assign m k v) k = some v := by
  simp [find_assign]

theorem find_assign_ne (m : StdMap V) {k k' : String} (v : V) (h : k ≠ k') :
    find (assign m k v) k' = find m k' := by
  simp [find_assign, h]

theorem mem_assign {m : StdMap V} {k : String} {v : V} {p : String × V}
    (h : p ∈ assign m k v) : p = (k, v) ∨ p ∈ m := by
  induction m with
  | nil => simp [assign] at h; exact Or.inl h
  | cons q rest ih =>
    obtain ⟨kq, vq⟩ := q
    rcases less_cases k kq with h1 | h1 | h1
    · rw [assign_cons_lt _ _ _ h1] at h
      rcases List.mem_cons.1 h with h | h
      · exact Or.inl h
      · exact Or.inr h
    · rw [assign_cons_gt _ _ _ h1] at h
      rcases List.mem_cons.1 h with h | h
      · exact Or.inr (by simp [h])
      · rcases ih h with h | h
        · exact Or.inl h
        · exact Or.inr (List.mem_cons_of_mem _ h)
    · subst h1
      rw [assign_cons_eq] at h
      rcases List.mem_cons.1 h with h | h
      · exact Or.inl h
      · exact Or.inr (List.mem_cons_of_mem _ h)

theorem sorted_assign {m : StdMap V} (hm : Sorted m) (k : String) (v : V) :
    Sorted (assign m k v) := by
  induction m with
  | nil => simp [assign, Sorted]
  | cons q rest ih =>
    obtain ⟨kq, vq⟩ := q
    have hq := List.pairwise_cons.1 hm
    rcases less_cases k kq with h1 | h1 | h1
    · rw [assign_cons_lt _ _ _ h1]
      refine List.pairwise_cons.2 ⟨?_, hm⟩
      intro p hp
      rcases List.mem_cons.1 hp with e | hp
      · subst e; exact h1
      · exact less_trans h1 (hq.1 p hp)
    · rw [assign_cons_gt _ _ _ h1]
      refine List.pairwise_cons.2 ⟨?_, ih hq.2⟩
      intro p hp
      rcases mem_assign hp with e | hp
      · subst e; exact h1
      · exact hq.1 p hp
    · subst h1
      rw [assign_cons_eq]
      exact List.pairwise_cons.2 ⟨hq.1, hq.2⟩

theorem find_eq_none_of_less {m : StdMap V} {k : String}
    (h : ∀ p ∈ m, less k p.1 = true) : find m k = none := by
  induction m with
  | nil => rfl
  | cons q rest ih =>
    obtain ⟨kq, vq⟩ := q
    have hne : kq ≠ k := fun e => less_ne (h (kq, vq) (by simp)) e.symm
    simp only [find, hne, if_false]
    exact ih (fun p hp => h p (by simp [hp]))

theorem length_assign {m : StdMap V} (hm : Sorted m) (k : String) (v : V) :
    (assign m k v).length = if (find m k).isSome then m.length else m.length + 1 := by
  induction m with
  | nil => simp [assign, find]
  | cons q rest ih =>
    obtain ⟨kq, vq⟩ := q
    have hq := List.pairwise_cons.1 hm
    rcases less_cases k kq with h1 | h1 | h1
    · rw [assign_cons_lt _ _ _ h1]
      have hne : kq ≠ k := fun e => less_ne h1 e.symm
      have hnone : find rest k = none :=
        find_eq_none_of_less (fun p hp => less_trans h1 (hq.1 p hp))
      simp [find, hne, hnone]
    · rw [assign_cons_gt _ _ _ h1]
      have hne : kq ≠ k := less_ne h1
      simp only [find, hne, if_false, List.length_cons, ih hq.2]
      split <;> rfl
    · subst h1
      rw [assign_cons_eq]
      simp [find]

theorem find_some_mem {m : StdMap V} {k : String} {v : V} (h : find m k = some v) :
    (k, v) ∈ m := by
  induction m with
  | nil => simp [find] at h
  | cons q rest ih =>
    obtain ⟨kq, vq⟩ := q
    simp only [find] at h
    by_cases e : kq = k
    · subst e
      simp only [if_true, Option.some.injEq] at h
      subst h
      simp
    · simp only [e, if_false] at h
      exact List.mem_cons_of_mem _ (ih h)

theorem find_eq_none_iff {m : StdMap V} {k : String} :
    find m k = none ↔ ∀ p ∈ m, p.1 ≠ k := by
  induction m with
  | nil => simp [find]
  | cons q rest ih =>
    obtain ⟨kq, vq⟩ := q
    simp only [find]
    by_cases e : kq = k
    · subst e; simp
    · simp [e, ih]

end StdMap

/-! ## Invariant and totality of `load` -/

theorem dataWF_nil : DataWF ([] : StdMap (StdMap T)) :=
  ⟨List.Pairwise.nil, fun _ h => by cases h⟩

theorem sorted_index {d : StdMap (StdMap T)} (hd : DataWF d) (c : String) :
    StdMap.Sorted (StdMap.index d c) := by
  unfold StdMap.index
  cases h : StdMap.find d c with
  | none => exact List.Pairwise.nil
  | some m => exact hd.2 _ (StdMap.find_some_mem h)

theorem dataWF_assign {d : StdMap (StdMap T)} (hd : DataWF d) (c k : String) (v : T) :
    DataWF (StdMap.assign d c ((StdMap.index d c).assign k v)) := by
  refine ⟨StdMap.sorted_assign hd.1 _ _, ?_⟩
  intro p hp
  rcases StdMap.mem_assign hp with e | hp
  · subst e
    exact StdMap.sorted_assign (sorted_index hd c) k v
  · exact hd.2 p hp

theorem findIdx_lt {l : List Char} {c : Char} {i : Nat} (h : findIdx l c = some i) :
    i < l.length := by
  induction l generalizing i with
  | nil => simp [findIdx] at h
  | cons x xs ih =>
    simp only [findIdx] at h
    by_cases e : x = c
    · simp only [e, if_true, Option.some.injEq] at h
      subst h; simp
    · simp only [e, if_false, Option.map_eq_some'] at h
      obtain ⟨j, hj, rfl⟩ := h
      simpa using ih hj

theorem find_lt {line : String} {c : Char} (h : find line c ≠ npos) :
    find line c < line.data.length := by
  unfold find at h ⊢
  cases hf : findIdx line.data c with
  | none => simp [hf] at h
  | some i => simpa using findIdx_lt hf

theorem substr_ok {line : String} {pos : Nat} (len : Nat) (h : pos ≤ line.data.length) :
    substr line pos len
      = .ok ⟨(line.data.drop pos).take (min len (line.data.length - pos))⟩ := by
  unfold substr
  rw [if_neg (Nat.not_lt.2 h)]

/-- One iteration of the loop of `load` never throws: both offsets are inside the line. -/
theorem loadLine_ok [Streamable T] (st : StdMap (StdMap T) × String) (line : String) :
    ∃ st', loadLine st line = .ok st' := by
  unfold loadLine
  by_cases h1 : find line '(' ≠ npos
  · have hlt := find_lt h1
    rw [if_pos h1, substr_ok _ (by omega : 1 ≤ line.data.length)]
    exact ⟨_, rfl⟩
  · rw [if_neg h1]
    by_cases h2 : find line ':' ≠ npos ∧ st.2 ≠ ""
    · have hlt := find_lt h2.1
      rw [if_pos h2]
      dsimp only
      rw [substr_ok _ (by omega : 1 ≤ line.data.length),
        substr_ok _ (by omega : find line ':' + 1 ≤ line.data.length)]
      exact ⟨_, rfl⟩
    · rw [if_neg h2]
      exact ⟨_, rfl⟩

theorem loadLines_ok [Streamable T] (st : StdMap (StdMap T) × String) (lines : List String) :
    ∃ st', loadLines st lines = .ok st' := by
  induction lines generalizing st with
  | nil => exact ⟨st, rfl⟩
  | cons line rest ih =>
    obtain ⟨st1, h1⟩ := loadLine_ok st line
    obtain ⟨st2, h2⟩ := ih st1
    exact ⟨st2, by simp [loadLines, h1, h2, bind, Except.bind]⟩

theorem loadLine_dataWF [Streamable T] {st st' : StdMap (StdMap T) × String} {line : String}
    (h : loadLine st line = .ok st') (hd : DataWF st.1) : DataWF st'.1 := by
  unfold loadLine at h
  by_cases h1 : find line '(' ≠ npos
  · have hlt := find_lt h1
    rw [if_pos h1, substr_ok _ (by omega : 1 ≤ line.data.length)] at h
    cases h
    exact hd
  · rw [if_neg h1] at h
    by_cases h2 : find line ':' ≠ npos ∧ st.2 ≠ ""
    · have hlt := find_lt h2.1
      rw [if_pos h2] at h
      dsimp only at h
      rw [substr_ok _ (by omega : 1 ≤ line.data.length),
        substr_ok _ (by omega : find line ':' + 1 ≤ line.data.length)] at h
      cases h
      exact dataWF_assign hd _ _ _
    · rw [if_neg h2] at h
      cases h
      exact hd

theorem loadLines_dataWF [Streamable T] {lines : List String}
    {st st' : StdMap (StdMap T) × String}
    (h : loadLines st lines = .ok st') (hd : DataWF st.1) : DataWF st'.1 := by
  induction lines generalizing st with
  | nil => cases h; exact hd
  | cons line rest ih =>
    obtain ⟨st1, h1⟩ := loadLine_ok st line
    simp only [loadLines, h1, bind, Except.bind] at h
    exact ih h (loadLine_dataWF h1 hd)

/-- A successful `load` is the parse of the file from the cleared map; `class_name` is kept. -/
theorem load_eq [Streamable T] (text : String) (s : UFOArray T) :
    ∃ st, loadLines (([] : StdMap (StdMap T)), "") (getlines text) = .ok st ∧
      load (some text) s = .ok { s with data := st.1 } := by
  obtain ⟨st, h⟩ := loadLines_ok (([] : StdMap (StdMap T)), "") (getlines text)
  exact ⟨st, h, by simp [load, h, bind, Except.bind, pure, Except.pure]⟩

/-- Every reachable store satisfies the invariant of its maps. -/
theorem Reachable.dataWF [Streamable T] {s : UFOArray T} (h : Reachable s) : DataWF s.data := by
  induction h with
  | new => exact dataWF_nil
  | setClassName c _ ih => exact ih
  | add k v _ ih => exact dataWF_assign ih _ _ _
  | @load file s0 s1 _ hl ih =>
    cases file with
    | none => simp [UFO.load] at hl
    | some text =>
      obtain ⟨st, h1, h2⟩ := load_eq text s0
      rw [h2] at hl
      cases hl
      exact loadLines_dataWF h1 dataWF_nil

/-! ## Rendering -/

theorem intercalate_go_append (a b s : String) (l : List String) :
    String.intercalate.go (a ++ b) s l = a ++ String.intercalate.go b s l := by
  induction l generalizing b with
  | nil => rfl
  | cons x xs ih =>
    simp only [String.intercalate.go]
    rw [String.append_assoc a b s, String.append_assoc a (b ++ s) x, ih]

theorem toStringLoop_cons [Streamable T] (acc : String) (p : String × T)
    (rest : List (String × T)) :
    toStringLoop acc (p :: rest)
      = String.intercalate.go (acc ++ renderEntry p) ",\n" (rest.map renderEntry) := by
  induction rest generalizing acc p with
  | nil =>
    obtain ⟨k, v⟩ := p
    simp [toStringLoop, renderEntry, String.intercalate.go, String.append_assoc]
  | cons q r ih =>
    obtain ⟨k, v⟩ := p
    rw [toStringLoop]
    simp only [List.isEmpty_cons, Bool.false_eq_true, if_false, List.map_cons,
      String.intercalate.go]
    rw [ih]
    simp [renderEntry, String.append_assoc]

/-- The loop of `toString` appends the entry lines joined by a comma and a newline. -/
theorem toStringLoop_eq [Streamable T] (acc : String) (m : List (String × T)) :
    toStringLoop acc m = acc ++ String.intercalate ",\n" (m.map renderEntry) := by
  cases m with
  | nil => simp [toStringLoop, String.intercalate]
  | cons p rest =>
    rw [toStringLoop_cons, intercalate_go_append]
    rfl

/-- On a store that has the current class, `toString` returns the reference rendering. -/
theorem toString_of_find [Streamable T] {s : UFOArray T} {m : StdMap T}
    (h : StdMap.find s.data s.class_name = some m) :
    toString s = .ok (renderRef s.class_name m) := by
  simp only [toString, StdMap.at, h, bind, Except.bind, pure, Except.pure, toStringLoop_eq,
    renderRef]
  congr 1
  simp only [String.append_assoc]
  rfl

theorem getAllByClass_eq_ok {s : UFOArray T} {c : String} {m : StdMap T} :
    getAllByClass c s = .ok m ↔ StdMap.find s.data c = some m := by
  unfold getAllByClass
  cases h : StdMap.find s.data c <;> simp

/-! ## Positions in a sorted map -/

namespace StdMap

variable {V : Type}

theorem sorted_get_less {m : StdMap V} (hm : Sorted m) {i j : Nat} {p q : String × V}
    (hij : i < j) (hp : m[i]? = some p) (hq : m[j]? = some q) :
    less p.1 q.1 = true := by
  induction m generalizing i j with
  | nil => simp at hp
  | cons x xs ih =>
    have hx := List.pairwise_cons.1 hm
    cases j with
    | zero => omega
    | succ j =>
      simp only [List.getElem?_cons_succ] at hq
      cases i with
      | zero =>
        simp only [List.getElem?_cons_zero, Option.some.injEq] at hp
        subst hp
        exact hx.1 q (List.getElem?_mem hq)
      | succ i =>
        simp only [List.getElem?_cons_succ] at hp
        exact ih hx.2 (by omega) hp hq

theorem sorted_get_less_iff {m : StdMap V} (hm : Sorted m) {i j : Nat} {p q : String × V}
    (hp : m[i]? = some p) (hq : m[j]? = some q) :
    i < j ↔ less p.1 q.1 = true := by
  constructor
  · intro hij
    exact sorted_get_less hm hij hp hq
  · intro hl
    by_contra hn
    rcases Nat.lt_or_eq_of_le (Nat.not_lt.1 hn) with h | h
    · have := less_asymm (sorted_get_less hm h hq hp)
      rw [hl] at this
      cases this
    · subst h
      rw [hp] at hq
      cases hq
      rw [less_irrefl] at hl
      cases hl

/-- In a sorted map the position of a node is the number of nodes with a smaller key. -/
theorem sorted_get_rank {m : StdMap V} (hm : Sorted m) {i : Nat} {p : String × V}
    (hp : m[i]? = some p) : (m.filter (fun r => less r.1 p.1)).length = i := by
  induction m generalizing i with
  | nil => simp at hp
  | cons x xs ih =>
    have hx := List.pairwise_cons.1 hm
    cases i with
    | zero =>
      simp only [List.getElem?_cons_zero, Option.some.injEq] at hp
      subst hp
      have : ∀ r ∈ x :: xs, ¬ (less r.1 x.1 = true) := by
        intro r hr
        rcases List.mem_cons.1 hr with e | hr
        · subst e; simp [less_irrefl]
        · simp [less_asymm (hx.1 r hr)]
      simp [List.filter_eq_nil_iff.2 this]
    | succ i =>
      simp only [List.getElem?_cons_succ] at hp
      have hxp : less x.1 p.1 = true := hx.1 p (List.getElem?_mem hp)
      simp [List.filter_cons, hxp, ih hx.2 hp]

/-- In a sorted map the node found for a key is the only node with that key. -/
theorem sorted_filter_key {m : StdMap V} (hm : Sorted m) {k : String} {v : V}
    (h : find m k = some v) : m.filter (fun p => p.1 = k) = [(k, v)] := by
  induction m with
  | nil => simp [find] at h
  | cons x xs ih =>
    obtain ⟨kx, vx⟩ := x
    have hx := List.pairwise_cons.1 hm
    simp only [find] at h
    by_cases e : kx = k
    · subst e
      simp only [if_true, Option.some.injEq] at h
      subst h
      have : ∀ r ∈ xs, ¬ (decide (r.1 = kx) = true) := by
        intro r hr
        simpa using fun e : r.1 = kx => less_ne (hx.1 r hr) e.symm
      simp [List.filter_cons, List.filter_eq_nil_iff.2 this]
    · simp only [e, if_false] at h
      simp [List.filter_cons, e, ih hx.2 h]

theorem getLast_mem_max {m : StdMap V} (hm : Sorted m) (hne : m ≠ []) :
    ∀ r ∈ m, r = m.getLast hne ∨ less r.1 (m.getLast hne).1 = true := by
  induction m with
  | nil => exact absurd rfl hne
  | cons x xs ih =>
    have hx := List.pairwise_cons.1 hm
    intro r hr
    cases xs with
    | nil =>
      simp only [List.mem_singleton] at hr
      exact Or.inl (by simp [hr])
    | cons y ys =>
      rw [List.getLast_cons (List.cons_ne_nil y ys)]
      rcases List.mem_cons.1 hr with e | hr
      · subst e
        exact Or.inr (hx.1 _ (List.getLast_mem _))
      · exact ih hx.2 (List.cons_ne_nil y ys) r hr

end StdMap

theorem getByIndexAndClass_eq_ok {s : UFOArray T} {c : String} {i : Nat} {p : String × T} :
    getByIndexAndClass c i s = .ok p ↔ ∃ m, StdMap.find s.data c = some m ∧ m[i]? = some p := by
  unfold getByIndexAndClass
  cases h : StdMap.find s.data c with
  | none => simp
  | some m =>
    cases h2 : m[i]? <;> simp [h2]

theorem find_add_self (s : UFOArray T) (k : String) (v : T) :
    StdMap.find (add k v s).data s.class_name
      = some ((StdMap.index s.data s.class_name).assign k v) := by
  simp [add, StdMap.find_assign_self]

theorem index_add_self (s : UFOArray T) (k : String) (v : T) :
    StdMap.index (add k v s).data (add k v s).class_name
      = (StdMap.index s.data s.class_name).assign k v := by
  have h : (add k v s).class_name = s.class_name := rfl
  rw [h]
  unfold StdMap.index
  rw [find_add_self]
  rfl
/-! ## The lines of a saved block -/

theorem getlinesAux_line (l : List Char) (acc rest : List Char)
    (hl : ∀ ch ∈ l, ch ≠ '\n') :
    getlinesAux acc (l ++ '\n' :: rest) = (acc.reverse ++ l) :: getlinesAux [] rest := by
  induction l generalizing acc with
  | nil => simp [getlinesAux]
  | cons x xs ih =>
    have hx : x ≠ '\n' := hl x (List.mem_cons_self _ _)
    rw [List.cons_append, getlinesAux, if_neg hx,
      ih _ (fun ch h => hl ch (List.mem_cons_of_mem _ h))]
    simp

theorem getlinesAux_linesOf (ls : List (List Char)) (h : ∀ l ∈ ls, ∀ ch ∈ l, ch ≠ '\n') :
    getlinesAux [] (linesOf ls) = ls := by
  induction ls with
  | nil => rfl
  | cons l ls ih =>
    rw [linesOf, getlinesAux_line l [] _ (h l (List.mem_cons_self _ _)),
      ih (fun l' hl' => h l' (List.mem_cons_of_mem _ hl'))]
    simp

theorem linesOf_append (a b : List (List Char)) : linesOf (a ++ b) = linesOf a ++ linesOf b := by
  induction a with
  | nil => rfl
  | cons l ls ih => simp [linesOf, ih]

theorem renderEntry_data [Streamable T] (p : String × T) :
    (renderEntry p).data
      = '\t' :: '"' :: (p.1.data ++ '"' :: ':' :: ' ' :: (Streamable.write p.2).data) := by
  obtain ⟨k, v⟩ := p
  unfold renderEntry
  generalize Streamable.write v = w
  cases k
  cases w
  simp only [String.data_append]
  simp

theorem toStringLoop_data [Streamable T] (acc : String) (m : List (String × T)) :
    (toStringLoop acc m).data ++ ['\n'] = acc.data ++ linesOf (entryLines m) := by
  induction m generalizing acc with
  | nil => simp [toStringLoop, entryLines, linesOf]
  | cons p rest ih =>
    have hp : (acc ++ "\t\"" ++ p.1 ++ "\": " ++ Streamable.write p.2).data
        = acc.data ++ (renderEntry p).data := by
      simp only [renderEntry, String.data_append, List.append_assoc]
    cases rest with
    | nil =>
      simp only [toStringLoop, List.isEmpty_nil, if_true, entryLines, linesOf, hp]
      simp
    | cons q r =>
      rw [toStringLoop]
      simp only [List.isEmpty_cons, Bool.false_eq_true, if_false]
      rw [ih, entryLines, linesOf, String.data_append, hp]
      simp

/-- The characters `save` writes for a class are the lines of its block. -/
theorem toString_lines [Streamable T] {s : UFOArray T} {m : StdMap T}
    (h : StdMap.find s.data s.class_name = some m) :
    ∃ block, toString s = .ok block ∧
      (block ++ "\n").data = linesOf (blockLines s.class_name m) := by
  refine ⟨toStringLoop ("(" ++ s.class_name ++ ")\n" ++ "\x7b\n") m ++ "\n\x7d", ?_, ?_⟩
  · simp [toString, StdMap.at, h, bind, Except.bind, pure, Except.pure]
  · have h1 := toStringLoop_data ("(" ++ s.class_name ++ ")\n" ++ "\x7b\n") m
    have h2 : ((toStringLoop ("(" ++ s.class_name ++ ")\n" ++ "\x7b\n") m ++ "\n\x7d") ++ "\n").data
        = ((toStringLoop ("(" ++ s.class_name ++ ")\n" ++ "\x7b\n") m).data ++ ['\n'])
          ++ ['\x7d', '\n'] := by
      simp only [String.data_append, List.append_assoc]
      rfl
    rw [h2, h1, blockLines, linesOf, linesOf, linesOf_append]
    simp only [String.data_append, List.append_assoc, linesOf]
    rfl
/-! ## Parsing the lines of a saved block -/

theorem findIdx_eq_none {l : List Char} {c : Char} (h : ∀ ch ∈ l, ch ≠ c) :
    findIdx l c = none := by
  induction l with
  | nil => rfl
  | cons x xs ih =>
    have hx : x ≠ c := h x (List.mem_cons_self _ _)
    simp [findIdx, hx, ih (fun ch hch => h ch (List.mem_cons_of_mem _ hch))]

theorem findIdx_append {pre : List Char} {c : Char} (post : List Char)
    (h : ∀ ch ∈ pre, ch ≠ c) : findIdx (pre ++ c :: post) c = some pre.length := by
  induction pre with
  | nil => simp [findIdx]
  | cons x xs ih =>
    have hx : x ≠ c := h x (List.mem_cons_self _ _)
    simp [findIdx, hx, ih (fun ch hch => h ch (List.mem_cons_of_mem _ hch))]

theorem find_mk_none {l : List Char} {c : Char} (h : ∀ ch ∈ l, ch ≠ c) :
    find ⟨l⟩ c = npos := by
  simp [find, findIdx_eq_none h]

theorem find_mk_append (pre : List Char) (c : Char) (post : List Char)
    (h : ∀ ch ∈ pre, ch ≠ c) : find ⟨pre ++ c :: post⟩ c = pre.length := by
  simp [find, findIdx_append post h]

theorem npos_eq : npos = 18446744073709551615 := by decide

/-- A header line as `save` writes it sets the parse class to the class name. -/
theorem loadLine_header [Streamable T] (st : StdMap (StdMap T) × String) (c : String)
    (hc : Plain c) : loadLine st ⟨'(' :: c.data ++ [')']⟩ = .ok (st.1, c) := by
  have hlen := hc.1
  rw [npos_eq] at hlen
  have h1 : find ⟨'(' :: c.data ++ [')']⟩ '(' = 0 :=
    find_mk_append [] '(' (c.data ++ [')']) (fun _ h => by cases h)
  have h2 : find ⟨'(' :: c.data ++ [')']⟩ ')' = c.data.length + 1 := by
    have := find_mk_append ('(' :: c.data) ')' [] (by
      intro ch hch
      rcases List.mem_cons.1 hch with e | hch
      · subst e; decide
      · exact (hc.2 ch hch).2.2.1)
    simpa using this
  have h3 : subSizeT (c.data.length + 1) 1 = c.data.length := by
    unfold subSizeT
    omega
  unfold loadLine
  rw [if_pos (by rw [h1, npos_eq]; omega), h2, h3, substr_ok _ (by simp)]
  simp [bind, Except.bind, pure, Except.pure]

theorem loadLine_skip [Streamable T] (st : StdMap (StdMap T) × String) (line : String)
    (h1 : find line '(' = npos) (h2 : find line ':' = npos) : loadLine st line = .ok st := by
  unfold loadLine
  rw [if_neg (by simp [h1]), if_neg (by simp [h2])]
  rfl

theorem loadLine_data [Streamable T] (st : StdMap (StdMap T) × String) (line : String)
    (h1 : find line '(' = npos) (h2 : find line ':' ≠ npos) (h3 : st.2 ≠ "") :
    ∃ (k : String) (v : T),
      loadLine st line = .ok (st.1.assign st.2 ((StdMap.index st.1 st.2).assign k v), st.2) := by
  have hlt := find_lt h2
  unfold loadLine
  rw [if_neg (by simp [h1]), if_pos ⟨h2, h3⟩]
  dsimp only
  rw [substr_ok _ (by omega : 1 ≤ line.data.length),
    substr_ok _ (by omega : find line ':' + 1 ≤ line.data.length)]
  exact ⟨_, _, rfl⟩

theorem loadLines_append [Streamable T] (st : StdMap (StdMap T) × String) (a b : List String) :
    loadLines st (a ++ b) = loadLines st a >>= fun st' => loadLines st' b := by
  induction a generalizing st with
  | nil => rfl
  | cons x xs ih =>
    simp only [List.cons_append, loadLines, bind, Except.bind]
    cases loadLine st x with
    | error e => rfl
    | ok st1 => exact ih st1

theorem StdMap.assign_ne_nil {V : Type} (m : StdMap V) (k : String) (v : V) :
    StdMap.assign m k v ≠ [] := by
  cases m with
  | nil => simp [StdMap.assign]
  | cons p rest =>
    obtain ⟨kp, vp⟩ := p
    simp only [StdMap.assign]
    split
    · simp
    · split <;> simp

/-- A line `save` writes for an entry with a plain key and value text, with or without the comma
at its end: it has no parenthesis and no newline, and its first colon is inside the line. -/
theorem entry_line_facts [Streamable T] (p : String × T) (tail : List Char)
    (hp : Plain p.1 ∧ Plain (Streamable.write p.2)) (ht : tail = [] ∨ tail = [',']) :
    find ⟨(renderEntry p).data ++ tail⟩ '(' = npos ∧
    find ⟨(renderEntry p).data ++ tail⟩ ':' ≠ npos ∧
    ∀ ch ∈ (renderEntry p).data ++ tail, ch ≠ '\n' := by
  have hk := hp.1.2
  have hv := hp.2.2
  have htail : ∀ ch ∈ tail, ch = ',' := by
    intro ch hch
    rcases ht with e | e <;> subst e <;> simp at hch
    exact hch
  have hmem : ∀ ch ∈ (renderEntry p).data ++ tail,
      ch = '\t' ∨ ch = '"' ∨ ch ∈ p.1.data ∨ ch = ':' ∨ ch = ' ' ∨
        ch ∈ (Streamable.write p.2).data ∨ ch = ',' := by
    intro ch hch
    rw [renderEntry_data] at hch
    simp only [List.cons_append, List.mem_cons, List.mem_append] at hch
    rcases hch with h | h | (h | h | h | h | h) | h
    · exact Or.inl h
    · exact Or.inr (Or.inl h)
    · exact Or.inr (Or.inr (Or.inl h))
    · exact Or.inr (Or.inl h)
    · exact Or.inr (Or.inr (Or.inr (Or.inl h)))
    · exact Or.inr (Or.inr (Or.inr (Or.inr (Or.inl h))))
    · exact Or.inr (Or.inr (Or.inr (Or.inr (Or.inr (Or.inl h)))))
    · exact Or.inr (Or.inr (Or.inr (Or.inr (Or.inr (Or.inr (htail ch h))))))
  refine ⟨?_, ?_, ?_⟩
  · apply find_mk_none
    intro ch hch
    rcases hmem ch hch with h | h | h | h | h | h | h
    · subst h; decide
    · subst h; decide
    · exact (hk ch h).2.1
    · subst h; decide
    · subst h; decide
    · exact (hv ch h).2.1
    · subst h; decide
  · have hlen := hp.1.1
    rw [npos_eq] at hlen
    have hpre : ∀ ch ∈ '\t' :: '"' :: (p.1.data ++ ['"']), ch ≠ ':' := by
      intro ch hch
      simp only [List.mem_cons, List.mem_append, List.mem_singleton, List.not_mem_nil,
        or_false] at hch
      rcases hch with h | h | h | h
      · subst h; decide
      · subst h; decide
      · exact (hk ch h).1
      · subst h; decide
    have := find_mk_append ('\t' :: '"' :: (p.1.data ++ ['"'])) ':'
      (' ' :: (Streamable.write p.2).data ++ tail) hpre
    have e : (renderEntry p).data ++ tail
        = ('\t' :: '"' :: (p.1.data ++ ['"'])) ++ ':' ::
          (' ' :: (Streamable.write p.2).data ++ tail) := by
      rw [renderEntry_data]
      simp
    rw [e, this, npos_eq]
    simp only [List.length_cons, List.length_append, List.length_nil]
    omega
  · intro ch hch
    rcases hmem ch hch with h | h | h | h | h | h | h
    · subst h; decide
    · subst h; decide
    · exact (hk ch h).2.2.2
    · subst h; decide
    · subst h; decide
    · exact (hv ch h).2.2.2
    · subst h; decide
/-- The entry lines of a non-empty class with plain keys and value texts are data lines. -/
theorem entryLines_facts [Streamable T] (m : List (String × T)) (hne : m ≠ [])
    (hm : ∀ p ∈ m, Plain p.1 ∧ Plain (Streamable.write p.2)) :
    entryLines m ≠ [] ∧
    ∀ l ∈ entryLines m, find ⟨l⟩ '(' = npos ∧ find ⟨l⟩ ':' ≠ npos ∧ ∀ ch ∈ l, ch ≠ '\n' := by
  induction m with
  | nil => exact absurd rfl hne
  | cons p rest ih =>
    cases rest with
    | nil =>
      refine ⟨by simp [entryLines], ?_⟩
      intro l hl
      simp only [entryLines, List.mem_singleton] at hl
      subst hl
      simpa using entry_line_facts p [] (hm p (List.mem_cons_self _ _)) (Or.inl rfl)
    | cons q r =>
      have ih' := ih (List.cons_ne_nil q r) (fun x hx => hm x (List.mem_cons_of_mem _ hx))
      refine ⟨by simp [entryLines], ?_⟩
      intro l hl
      simp only [entryLines, List.mem_cons] at hl
      rcases hl with e | hl
      · subst e
        exact entry_line_facts p [','] (hm p (List.mem_cons_self _ _)) (Or.inr rfl)
      · exact ih'.2 l (by simpa [entryLines] using hl)

/-- Data lines read under a parse class `c` only touch class `c`, and leave it non-empty. -/
theorem loadLines_data [Streamable T] (c : String) (hc : c ≠ "") (ls : List String)
    (hls : ∀ l ∈ ls, find l '(' = npos ∧ find l ':' ≠ npos) (d : StdMap (StdMap T)) :
    ∃ d', loadLines (d, c) ls = .ok (d', c) ∧
      (∀ c', c' ≠ c → StdMap.find d' c' = StdMap.find d c') ∧
      ((ls ≠ [] ∨ ∃ m, StdMap.find d c = some m ∧ m ≠ []) →
        ∃ m', StdMap.find d' c = some m' ∧ m' ≠ []) := by
  induction ls generalizing d with
  | nil =>
    refine ⟨d, rfl, fun _ _ => rfl, ?_⟩
    rintro (h | h)
    · exact absurd rfl h
    · exact h
  | cons l rest ih =>
    obtain ⟨hl1, hl2⟩ := hls l (List.mem_cons_self _ _)
    obtain ⟨k, v, hstep⟩ := loadLine_data (d, c) l hl1 hl2 hc
    obtain ⟨d', hd', hother, hsome⟩ :=
      ih (fun x hx => hls x (List.mem_cons_of_mem _ hx))
        (StdMap.assign d c ((StdMap.index d c).assign k v))
    refine ⟨d', ?_, ?_, ?_⟩
    · simp only [loadLines, hstep, bind, Except.bind]
      exact hd'
    · intro c' hc'
      rw [hother c' hc', StdMap.find_assign_ne _ _ (fun e => hc' e.symm)]
    · intro _
      exact hsome (Or.inr ⟨_, StdMap.find_assign_self _ _ _, StdMap.assign_ne_nil _ _ _⟩)

theorem ok_bind {α β : Type} (a : α) (f : α → Except Exn β) :
    (Except.ok a >>= f) = f a := rfl

theorem loadLines_single [Streamable T] {st st' : StdMap (StdMap T) × String} {line : String}
    (h : loadLine st line = .ok st') : loadLines st [line] = .ok st' := by
  simp only [loadLines, h, bind, Except.bind]
  rfl

/-- Reading the lines of a saved block: the parse class becomes the class of the block, that class
ends up with at least one entry, and no other class is touched. -/
theorem loadLines_block [Streamable T] (c : String) (hc : c ≠ "") (hcp : Plain c)
    (m : List (String × T)) (hne : m ≠ [])
    (hm : ∀ p ∈ m, Plain p.1 ∧ Plain (Streamable.write p.2))
    (st : StdMap (StdMap T) × String) :
    ∃ d', loadLines st ((blockLines c m).map String.mk) = .ok (d', c) ∧
      (∀ c', c' ≠ c → StdMap.find d' c' = StdMap.find st.1 c') ∧
      ∃ m', StdMap.find d' c = some m' ∧ m' ≠ [] := by
  obtain ⟨hne', hfacts⟩ := entryLines_facts m hne hm
  obtain ⟨d', hd', hother, hsome⟩ := loadLines_data c hc ((entryLines m).map String.mk)
    (by
      intro l hl
      obtain ⟨l0, hl0, rfl⟩ := List.mem_map.1 hl
      exact ⟨(hfacts l0 hl0).1, (hfacts l0 hl0).2.1⟩) st.1
  refine ⟨d', ?_, hother, hsome (Or.inl (by simpa using hne'))⟩
  have hopen : loadLine (st.1, c) ⟨['\x7b']⟩ = .ok ((st.1, c) : StdMap (StdMap T) × String) :=
    loadLine_skip _ _ (by decide) (by decide)
  have hclose : loadLine (d', c) ⟨['\x7d']⟩ = .ok ((d', c) : StdMap (StdMap T) × String) :=
    loadLine_skip _ _ (by decide) (by decide)
  have e : (blockLines c m).map String.mk
      = [String.mk ('(' :: c.data ++ [')'])] ++ ([String.mk ['\x7b']] ++
          ((entryLines m).map String.mk ++ [String.mk ['\x7d']])) := by
    simp [blockLines]
  rw [e, loadLines_append, loadLines_single (loadLine_header st c hcp), ok_bind,
    loadLines_append, loadLines_single hopen, ok_bind,
    loadLines_append, hd', ok_bind, loadLines_single hclose]

theorem blockLines_no_newline [Streamable T] (c : String) (hcp : Plain c)
    (m : List (String × T)) (hne : m ≠ [])
    (hm : ∀ p ∈ m, Plain p.1 ∧ Plain (Streamable.write p.2)) :
    ∀ l ∈ blockLines c m, ∀ ch ∈ l, ch ≠ '\n' := by
  intro l hl ch hch
  simp only [blockLines, List.mem_cons, List.mem_append, List.mem_singleton, List.not_mem_nil,
    or_false] at hl
  rcases hl with e | e | hl | e
  · subst e
    simp only [List.mem_cons, List.mem_append, List.mem_singleton, List.not_mem_nil,
      or_false] at hch
    rcases hch with (h | h) | h
    · subst h; decide
    · exact (hcp.2 ch h).2.2.2
    · subst h; decide
  · subst e
    simp only [List.mem_singleton] at hch
    subst hch; decide
  · exact (entryLines_facts m hne hm).2 l hl |>.2.2 ch hch
  · subst e
    simp only [List.mem_singleton] at hch
    subst hch; decide

theorem getlines_eq (text : String) : getlines text = (getlinesAux [] text.data).map String.mk :=
  rfl
/-! ## Loading what `save` wrote -/

theorem save_new_data [Streamable T] {s : UFOArray T} {m : StdMap T} (old : String)
    (h : StdMap.find s.data s.class_name = some m) :
    ∃ text, save (some old) true s = .ok text ∧
      text.data = old.data ++ linesOf (blockLines s.class_name m) := by
  obtain ⟨block, hts, hdata⟩ := toString_lines h
  refine ⟨old ++ block ++ "\n", ?_, ?_⟩
  · simp [save, hts, bind, Except.bind, pure, Except.pure]
  · rw [String.append_assoc, String.data_append, hdata]

theorem load_of_lines [Streamable T] (text : String) {ls : List (List Char)}
    {st : StdMap (StdMap T) × String} (s0 : UFOArray T)
    (hdata : text.data = linesOf ls) (hnl : ∀ l ∈ ls, ∀ ch ∈ l, ch ≠ '\n')
    (hload : loadLines (([] : StdMap (StdMap T)), "") (ls.map String.mk) = .ok st) :
    load (some text) s0 = .ok { s0 with data := st.1 } := by
  have hl : getlines text = ls.map String.mk := by
    rw [getlines_eq, hdata, getlinesAux_linesOf ls hnl]
  simp only [load, hl, hload, bind, Except.bind, pure, Except.pure]

/-- Shared core of the round trip: for a non-empty plain class name and a non-empty class with
plain keys and value texts, the saved text loads into a store whose only class is that one, with
at least one entry. -/
theorem saveThenLoad_class [Streamable T] (s : UFOArray T) (m : StdMap T)
    (hf : StdMap.find s.data s.class_name = some m) (hne : m ≠ [])
    (hc : s.class_name ≠ "") (hcp : Plain s.class_name)
    (hp : ∀ p ∈ m, Plain p.1 ∧ Plain (Streamable.write p.2)) :
    ∃ (s' : UFOArray T) (m' : StdMap T),
      saveThenLoad s = .ok s' ∧ StdMap.find s'.data s.class_name = some m' ∧ m' ≠ [] ∧
      ∀ c', c' ≠ s.class_name → StdMap.find s'.data c' = none := by
  obtain ⟨text, hsave, hdata⟩ := save_new_data "" hf
  obtain ⟨d', hd', hother, m', hm', hne'⟩ :=
    loadLines_block s.class_name hc hcp m hne hp (([] : StdMap (StdMap T)), "")
  have hload := load_of_lines text (UFOArray.new : UFOArray T)
    (by simpa using hdata) (blockLines_no_newline s.class_name hcp m hne hp) hd'
  refine ⟨{ (UFOArray.new : UFOArray T) with data := d' }, m', ?_, hm', hne',
    fun c' hc' => (hother c' hc').trans rfl⟩
  simp only [saveThenLoad, hsave, bind, Except.bind]
  exact hload

/-- Shared core of the append scenario. -/
theorem saveTwoThenLoad_classes [Streamable T] (s : UFOArray T) (c1 c2 : String)
    (m1 m2 : StdMap T) (hne : c1 ≠ c2)
    (hf1 : StdMap.find s.data c1 = some m1) (hf2 : StdMap.find s.data c2 = some m2)
    (hne1 : m1 ≠ []) (hne2 : m2 ≠ [])
    (hc1 : c1 ≠ "") (hc2 : c2 ≠ "") (hcp1 : Plain c1) (hcp2 : Plain c2)
    (hp1 : ∀ p ∈ m1, Plain p.1 ∧ Plain (Streamable.write p.2))
    (hp2 : ∀ p ∈ m2, Plain p.1 ∧ Plain (Streamable.write p.2)) :
    ∃ (s' : UFOArray T) (m1' m2' : StdMap T),
      saveTwoThenLoad c1 c2 s = .ok s' ∧
      StdMap.find s'.data c1 = some m1' ∧ m1' ≠ [] ∧
      StdMap.find s'.data c2 = some m2' ∧ m2' ≠ [] ∧
      ∀ c', c' ≠ c1 → c' ≠ c2 → StdMap.find s'.data c' = none := by
  obtain ⟨text1, hsave1, hdata1⟩ := save_new_data (s := setClassName c1 s) "" hf1
  obtain ⟨text2, hsave2, hdata2⟩ := save_new_data (s := setClassName c2 s) text1 hf2
  obtain ⟨d1, hd1, hother1, m1', hm1', hne1'⟩ :=
    loadLines_block c1 hc1 hcp1 m1 hne1 hp1 (([] : StdMap (StdMap T)), "")
  obtain ⟨d2, hd2, hother2, m2', hm2', hne2'⟩ :=
    loadLines_block c2 hc2 hcp2 m2 hne2 hp2 (d1, c1)
  have hdata : text2.data = linesOf (blockLines c1 m1 ++ blockLines c2 m2) := by
    rw [hdata2, hdata1, linesOf_append]
    rfl
  have hnl : ∀ l ∈ blockLines c1 m1 ++ blockLines c2 m2, ∀ ch ∈ l, ch ≠ '\n' := by
    intro l hl
    rcases List.mem_append.1 hl with h | h
    · exact blockLines_no_newline c1 hcp1 m1 hne1 hp1 l h
    · exact blockLines_no_newline c2 hcp2 m2 hne2 hp2 l h
  have hlines : loadLines (([] : StdMap (StdMap T)), "")
      ((blockLines c1 m1 ++ blockLines c2 m2).map String.mk) = .ok (d2, c2) := by
    rw [List.map_append, loadLines_append, hd1, ok_bind, hd2]
  have hload := load_of_lines text2 (UFOArray.new : UFOArray T) hdata hnl hlines
  refine ⟨{ (UFOArray.new : UFOArray T) with data := d2 }, m1', m2', ?_, ?_, hne1', hm2', hne2',
    ?_⟩
  · simp only [saveTwoThenLoad, hsave1, hsave2, bind, Except.bind]
    exact hload
  · show StdMap.find d2 c1 = some m1'
    rw [hother2 c1 hne, hm1']
  · intro c' h1 h2
    show StdMap.find d2 c' = none
    rw [hother2 c' h2, hother1 c' h1]
    rfl
/-! ## Frame lemmas for `add` -/

theorem StdMap.filter_assign {V : Type} (m : StdMap V) (k : String) (v : V) :
    (StdMap.assign m k v).filter (fun p => p.1 ≠ k) = m.filter (fun p => p.1 ≠ k) := by
  induction m with
  | nil => simp [StdMap.assign]
  | cons q rest ih =>
    obtain ⟨kq, vq⟩ := q
    rcases less_cases k kq with h | h | h
    · rw [StdMap.assign_cons_lt _ _ _ h]
      simp [List.filter_cons]
    · rw [StdMap.assign_cons_gt _ _ _ h]
      simp only [List.filter_cons, ih]
    · subst h
      rw [StdMap.assign_cons_eq]
      simp [List.filter_cons]

theorem find_index (d : StdMap (StdMap T)) (c k : String) :
    StdMap.find (StdMap.index d c) k = lookup d c k := by
  unfold StdMap.index lookup
  cases StdMap.find d c with
  | none => rfl
  | some m => rfl

/-- The effect of `data[c][k] = v` on the stored values. -/
theorem lookup_assign (d : StdMap (StdMap T)) (c k : String) (v : T) (c' k' : String) :
    lookup (StdMap.assign d c ((StdMap.index d c).assign k v)) c' k'
      = if c' = c ∧ k' = k then some v else lookup d c' k' := by
  unfold lookup
  rw [StdMap.find_assign]
  by_cases hc : c = c'
  · subst hc
    simp only [if_true, Option.bind, StdMap.find_assign, find_index, true_and]
    by_cases hk : k = k'
    · subst hk; simp
    · have hk' : ¬ k' = k := fun e => hk e.symm
      simp [hk, hk', lookup, Option.bind]
  · have hc' : ¬ c' = c := fun e => hc e.symm
    simp [hc, hc']
/-! ## What one line of the file can do -/

/-- A line either leaves the nested map alone, or assigns one entry under the non-empty parse
class and keeps that class. -/
theorem loadLine_cases [Streamable T] {st st' : StdMap (StdMap T) × String} {line : String}
    (h : loadLine st line = .ok st') :
    st'.1 = st.1 ∨
    (st.2 ≠ "" ∧ st'.2 = st.2 ∧
      ∃ (k : String) (v : T), st'.1 = st.1.assign st.2 ((StdMap.index st.1 st.2).assign k v)) := by
  unfold loadLine at h
  by_cases h1 : find line '(' ≠ npos
  · have hlt := find_lt h1
    rw [if_pos h1, substr_ok _ (by omega : 1 ≤ line.data.length)] at h
    cases h
    exact Or.inl rfl
  · rw [if_neg h1] at h
    by_cases h2 : find line ':' ≠ npos ∧ st.2 ≠ ""
    · have hlt := find_lt h2.1
      rw [if_pos h2] at h
      dsimp only at h
      rw [substr_ok _ (by omega : 1 ≤ line.data.length),
        substr_ok _ (by omega : find line ':' + 1 ≤ line.data.length)] at h
      cases h
      exact Or.inr ⟨h2.2, rfl, _, _, rfl⟩
    · rw [if_neg h2] at h
      cases h
      exact Or.inl rfl

/-- The invariant of `load` and `add`: no class without entries. -/
theorem classes_ne_nil_assign {d : StdMap (StdMap T)} (hd : ∀ p ∈ d, p.2 ≠ [])
    (c k : String) (v : T) :
    ∀ p ∈ StdMap.assign d c ((StdMap.index d c).assign k v), p.2 ≠ [] := by
  intro p hp
  rcases StdMap.mem_assign hp with e | hp
  · subst e
    exact StdMap.assign_ne_nil _ _ _
  · exact hd p hp

theorem loadLines_classes [Streamable T] {lines : List String}
    {st st' : StdMap (StdMap T) × String} (h : loadLines st lines = .ok st')
    (hd : ∀ p ∈ st.1, p.1 ≠ "" ∧ p.2 ≠ []) : ∀ p ∈ st'.1, p.1 ≠ "" ∧ p.2 ≠ [] := by
  induction lines generalizing st with
  | nil => cases h; exact hd
  | cons line rest ih =>
    obtain ⟨st1, h1⟩ := loadLine_ok st line
    simp only [loadLines, h1, bind, Except.bind] at h
    refine ih h ?_
    rcases loadLine_cases h1 with e | ⟨hne, _, k, v, e⟩
    · rw [e]; exact hd
    · rw [e]
      intro p hp
      rcases StdMap.mem_assign hp with e' | hp
      · subst e'
        exact ⟨hne, StdMap.assign_ne_nil _ _ _⟩
      · exact hd p hp

/-- After a `load` every class of the store has a non-empty name and at least one entry. -/
theorem load_classes [Streamable T] {file : Option String} {s s' : UFOArray T}
    (h : load file s = .ok s') : ∀ p ∈ s'.data, p.1 ≠ "" ∧ p.2 ≠ [] := by
  cases file with
  | none => simp [load] at h
  | some text =>
    obtain ⟨st, h1, h2⟩ := load_eq text s
    rw [h2] at h
    cases h
    exact loadLines_classes h1 (fun _ hp => by cases hp)

/-- No reachable store has a class without entries. -/
theorem Reachable.classes_ne_nil [Streamable T] {s : UFOArray T} (h : Reachable s) :
    ∀ p ∈ s.data, p.2 ≠ [] := by
  induction h with
  | new => intro p hp; cases hp
  | setClassName c _ ih => exact ih
  | add k v _ ih => exact classes_ne_nil_assign ih _ _ _
  | @load file s0 s1 _ hl _ => exact fun p hp => (load_classes hl p hp).2

theorem find_eq_none_of_names {V : Type} {d : StdMap V} {c : String}
    (h : ∀ p ∈ d, p.1 ≠ c) : StdMap.find d c = none :=
  StdMap.find_eq_none_iff.2 h
/-! ## Lines of a text cut at a line boundary -/

theorem getlinesAux_split (a b acc : List Char) :
    getlinesAux acc (a ++ '\n' :: b) = getlinesAux acc (a ++ ['\n']) ++ getlinesAux [] b := by
  induction a generalizing acc with
  | nil => simp [getlinesAux]
  | cons x xs ih =>
    rw [List.cons_append, List.cons_append, getlinesAux, getlinesAux]
    by_cases hx : x = '\n'
    · rw [if_pos hx, if_pos hx, ih, List.cons_append]
    · rw [if_neg hx, if_neg hx, ih]

/-- A text that is empty or ends with a newline is a sequence of whole lines: what follows it
starts a new line. -/
theorem getlinesAux_boundary (pre rest : List Char) (hpre : pre = [] ∨ ∃ a, pre = a ++ ['\n']) :
    getlinesAux [] (pre ++ rest) = getlinesAux [] pre ++ getlinesAux [] rest := by
  rcases hpre with e | ⟨a, e⟩
  · subst e; simp [getlinesAux]
  · subst e
    rw [List.append_assoc, List.singleton_append, getlinesAux_split]

theorem loadLines_insert_skip [Streamable T] (st : StdMap (StdMap T) × String)
    (a b : List String) (line : String) (h : ∀ st' : StdMap (StdMap T) × String,
      loadLine st' line = .ok st') :
    loadLines st (a ++ line :: b) = loadLines st (a ++ b) := by
  rw [loadLines_append, loadLines_append]
  cases loadLines st a with
  | error e => rfl
  | ok st1 =>
    rw [ok_bind, ok_bind]
    simp only [loadLines, h st1, bind, Except.bind]
/-! ## Header lines -/

theorem findIdx_of_mem {l : List Char} {c : Char} (h : c ∈ l) : ∃ i, findIdx l c = some i := by
  induction l with
  | nil => cases h
  | cons x xs ih =>
    by_cases e : x = c
    · exact ⟨0, by simp [findIdx, e]⟩
    · rcases List.mem_cons.1 h with h | h
      · exact absurd h.symm e
      · obtain ⟨i, hi⟩ := ih h
        exact ⟨i + 1, by simp [findIdx, e, hi]⟩

theorem find_ne_npos_of_mem {l : List Char} {c : Char} (h : c ∈ l) (hlen : l.length < npos) :
    find ⟨l⟩ c ≠ npos := by
  obtain ⟨i, hi⟩ := findIdx_of_mem h
  have := findIdx_lt hi
  simp only [find, hi, Option.getD_some]
  omega

/-- A header line whose first closing parenthesis is at offset `name.length + 1`: the parse class
becomes the characters from offset 1 up to that parenthesis. -/
theorem loadLine_header_at [Streamable T] (st : StdMap (StdMap T) × String) (x : Char)
    (name rest : List Char) (hparen : '(' ∈ x :: (name ++ ')' :: rest))
    (hname : ∀ ch ∈ x :: name, ch ≠ ')')
    (hlen : (x :: (name ++ ')' :: rest)).length < npos) :
    loadLine st ⟨x :: (name ++ ')' :: rest)⟩ = .ok (st.1, ⟨name⟩) := by
  have h1 := find_ne_npos_of_mem hparen hlen
  have h2 : find ⟨x :: (name ++ ')' :: rest)⟩ ')' = name.length + 1 := by
    have := find_mk_append (x :: name) ')' rest hname
    simpa using this
  rw [npos_eq] at hlen
  simp only [List.length_cons, List.length_append] at hlen
  have h3 : subSizeT (name.length + 1) 1 = name.length := by
    unfold subSizeT
    omega
  unfold loadLine
  rw [if_pos h1, h2, h3, substr_ok _ (by simp)]
  simp [bind, Except.bind, pure, Except.pure]

/-- A header line without a closing parenthesis after offset 0: the parse class becomes the rest
of the line from offset 1. -/
theorem loadLine_header_rest [Streamable T] (st : StdMap (StdMap T) × String) (x : Char)
    (tl : List Char) (hparen : '(' ∈ x :: tl) (htl : ∀ ch ∈ tl, ch ≠ ')')
    (hlen : (x :: tl).length < npos) :
    loadLine st ⟨x :: tl⟩ = .ok (st.1, ⟨tl⟩) := by
  have h1 := find_ne_npos_of_mem hparen hlen
  rw [npos_eq] at hlen
  simp only [List.length_cons] at hlen
  have hle : tl.length ≤ subSizeT (find ⟨x :: tl⟩ ')') 1 := by
    by_cases hx : x = ')'
    · have : find ⟨x :: tl⟩ ')' = 0 := by simp [find, findIdx, hx]
      rw [this]
      simp only [subSizeT]
      omega
    · have : find ⟨x :: tl⟩ ')' = npos := by
        simp [find, findIdx, hx, findIdx_eq_none htl]
      rw [this]
      simp only [subSizeT, npos_eq]
      omega
  unfold loadLine
  rw [if_pos h1, substr_ok _ (by simp)]
  simp only [List.drop_succ_cons, List.drop_zero, List.length_cons, Nat.add_sub_cancel,
    Nat.min_eq_right hle, List.take_length, bind, Except.bind, pure, Except.pure]

/-- A line without an opening parenthesis keeps the parse class. -/
theorem loadLine_keeps_class [Streamable T] (st : StdMap (StdMap T) × String) (line : String)
    (h : find line '(' = npos) : ∃ d', loadLine st line = .ok (d', st.2) := by
  by_cases h2 : find line ':' ≠ npos ∧ st.2 ≠ ""
  · obtain ⟨k, v, hk⟩ := loadLine_data st line h h2.1 h2.2
    exact ⟨_, hk⟩
  · refine ⟨st.1, ?_⟩
    unfold loadLine
    rw [if_neg (by simp [h]), if_neg h2]
    rfl
/-! ## `load` against the data lines of the file -/

theorem substr_eq_chars {line : String} {pos : Nat} (len : Nat) (h : pos ≤ line.data.length) :
    substr line pos len = .ok (substrChars line pos len) :=
  substr_ok len h

/-- One iteration of the loop of `load`, by the kind of the line. -/
theorem loadLine_eq [Streamable T] (st : StdMap (StdMap T) × String) (line : String) :
    loadLine st line =
      if find line '(' ≠ npos then
        .ok (st.1, substrChars line 1 (subSizeT (find line ')') 1))
      else if find line ':' ≠ npos ∧ st.2 ≠ "" then
        .ok (st.1.assign st.2 ((StdMap.index st.1 st.2).assign
          (substrChars line 1 (subSizeT (find line ':') 3))
          (Streamable.read (substrChars line (find line ':' + 1) npos))), st.2)
      else .ok st := by
  unfold loadLine
  by_cases h1 : find line '(' ≠ npos
  · have hlt := find_lt h1
    rw [if_pos h1, if_pos h1, substr_eq_chars _ (by omega : 1 ≤ line.data.length)]
    rfl
  · rw [if_neg h1, if_neg h1]
    by_cases h2 : find line ':' ≠ npos ∧ st.2 ≠ ""
    · have hlt := find_lt h2.1
      rw [if_pos h2, if_pos h2]
      dsimp only
      rw [substr_eq_chars _ (by omega : 1 ≤ line.data.length),
        substr_eq_chars _ (by omega : find line ':' + 1 ≤ line.data.length)]
      rfl
    · rw [if_neg h2, if_neg h2]
      rfl

theorem lastValue_isSome_iff (es : List (String × String × T)) (c k : String) :
    (∃ v, lastValue es c k = some v) ↔ ∃ e ∈ es, e.1 = c ∧ e.2.1 = k := by
  induction es with
  | nil => simp [lastValue]
  | cons e rest ih =>
    simp only [lastValue, List.mem_cons, exists_eq_or_imp]
    cases h : lastValue rest c k with
    | some v =>
      have := ih.1 ⟨v, h⟩
      exact ⟨fun _ => Or.inr this, fun _ => ⟨v, rfl⟩⟩
    | none =>
      have hno : ¬ ∃ e ∈ rest, e.1 = c ∧ e.2.1 = k := by
        intro hex
        obtain ⟨v, hv⟩ := ih.2 hex
        rw [h] at hv
        cases hv
      by_cases he : e.1 = c ∧ e.2.1 = k
      · simp [he]
      · simp only [he, if_false, false_or]
        constructor
        · rintro ⟨v, hv⟩; cases hv
        · intro hex; exact absurd hex hno

/-- The loop of `load` from any state: afterwards a key of a class has the value of its last data
line, or its old value when no data line names it; and a class is there when a data line names it
or it was there before. -/
theorem loadLines_lastValue [Streamable T] (lines : List String) (d : StdMap (StdMap T))
    (cur : String) :
    ∃ d' cur', loadLines (d, cur) lines = .ok (d', cur') ∧
      (∀ c k, lookup d' c k =
        match lastValue (dataEntries cur lines : List (String × String × T)) c k with
        | some v => some v
        | none => lookup d c k) ∧
      ∀ c, (∃ m, StdMap.find d' c = some m) ↔
        ((∃ e ∈ (dataEntries cur lines : List (String × String × T)), e.1 = c) ∨
          ∃ m, StdMap.find d c = some m) := by
  induction lines generalizing d cur with
  | nil =>
    refine ⟨d, cur, rfl, fun c k => rfl, fun c => ?_⟩
    simp [dataEntries]
  | cons line rest ih =>
    have hstep := loadLine_eq (d, cur) line
    by_cases h1 : find line '(' ≠ npos
    · rw [if_pos h1] at hstep
      obtain ⟨d', cur', hl, hv, hc⟩ := ih d (substrChars line 1 (subSizeT (find line ')') 1))
      refine ⟨d', cur', ?_, ?_, ?_⟩
      · simp only [loadLines, hstep, bind, Except.bind]
        exact hl
      · intro c k
        rw [hv c k]
        simp only [dataEntries, if_pos h1]
      · intro c
        rw [hc c]
        simp only [dataEntries, if_pos h1]
    · rw [if_neg h1] at hstep
      by_cases h2 : find line ':' ≠ npos ∧ cur ≠ ""
      · rw [if_pos h2] at hstep
        obtain ⟨d', cur', hl, hv, hc⟩ := ih (StdMap.assign d cur ((StdMap.index d cur).assign
          (substrChars line 1 (subSizeT (find line ':') 3))
          (Streamable.read (substrChars line (find line ':' + 1) npos)))) cur
        refine ⟨d', cur', ?_, ?_, ?_⟩
        · simp only [loadLines, hstep, bind, Except.bind]
          exact hl
        · intro c k
          rw [hv c k, lookup_assign]
          simp only [dataEntries, if_neg h1, if_pos h2, lastValue]
          cases lastValue (dataEntries cur rest : List (String × String × T)) c k with
          | some v => rfl
          | none =>
            by_cases he : c = cur ∧ k = substrChars line 1 (subSizeT (find line ':') 3)
            · have he' : cur = c ∧ substrChars line 1 (subSizeT (find line ':') 3) = k :=
                ⟨he.1.symm, he.2.symm⟩
              simp only [if_pos he, if_pos he']
            · have he' : ¬ (cur = c ∧ substrChars line 1 (subSizeT (find line ':') 3) = k) :=
                fun h => he ⟨h.1.symm, h.2.symm⟩
              simp only [if_neg he, if_neg he']
        · intro c
          rw [hc c, StdMap.find_assign]
          simp only [dataEntries, if_neg h1, if_pos h2, List.mem_cons, exists_eq_or_imp]
          by_cases e : cur = c
          · subst e
            simp
          · simp only [e, if_false, false_or]
      · rw [if_neg h2] at hstep
        obtain ⟨d', cur', hl, hv, hc⟩ := ih d cur
        refine ⟨d', cur', ?_, ?_, ?_⟩
        · simp only [loadLines, hstep, bind, Except.bind]
          exact hl
        · intro c k
          rw [hv c k]
          simp only [dataEntries, if_neg h1, if_neg h2]
        · intro c
          rw [hc c]
          simp only [dataEntries, if_neg h1, if_neg h2]
/-- A header line that starts with a closing parenthesis: the length wraps, and the parse class
becomes the whole rest of the line from offset 1, closing parentheses included. -/
theorem loadLine_header_close [Streamable T] (st : StdMap (StdMap T) × String)
    (tl : List Char) (hparen : '(' ∈ ')' :: tl) (hlen : (')' :: tl).length < npos) :
    loadLine st ⟨')' :: tl⟩ = .ok (st.1, ⟨tl⟩) := by
  have h1 := find_ne_npos_of_mem hparen hlen
  rw [npos_eq] at hlen
  simp only [List.length_cons] at hlen
  have h0 : find ⟨')' :: tl⟩ ')' = 0 := by simp [find, findIdx]
  have hle : tl.length ≤ subSizeT (find ⟨')' :: tl⟩ ')') 1 := by
    rw [h0]
    simp only [subSizeT]
    omega
  unfold loadLine
  rw [if_pos h1, substr_ok _ (by simp)]
  simp only [List.drop_succ_cons, List.drop_zero, List.length_cons, Nat.add_sub_cancel,
    Nat.min_eq_right hle, List.take_length, bind, Except.bind, pure, Except.pure]

/-- Every header line shorter than `npos`: the parse class is `headerName` of the line. -/
theorem loadLine_headerName [Streamable T] (st : StdMap (StdMap T) × String)
    (line : List Char) (hparen : '(' ∈ line) (hlen : line.length < npos) :
    loadLine st ⟨line⟩ = .ok (st.1, ⟨headerName line⟩) := by
  cases line with
  | nil => cases hparen
  | cons x tl =>
    by_cases hx : x = ')'
    · subst hx
      simp only [headerName, if_true]
      exact loadLine_header_close st tl hparen hlen
    · simp only [headerName, hx, if_false]
      have hsplit := List.takeWhile_append_dropWhile (fun ch => decide (ch ≠ ')')) tl
      have htake : ∀ ch ∈ x :: tl.takeWhile (fun ch => decide (ch ≠ ')')), ch ≠ ')' := by
        intro ch hch
        rcases List.mem_cons.1 hch with e | hch
        · subst e; exact hx
        · simpa using List.mem_takeWhile_imp hch
      cases hdrop : tl.dropWhile (fun ch => decide (ch ≠ ')')) with
      | nil =>
        rw [hdrop, List.append_nil] at hsplit
        rw [hsplit]
        refine loadLine_header_rest st x tl hparen ?_ hlen
        intro ch hch
        rw [← hsplit] at hch
        exact htake ch (List.mem_cons_of_mem _ hch)
      | cons y rest =>
        have hy : y = ')' := by
          have := List.head_dropWhile_not (fun ch => decide (ch ≠ ')')) tl
            (by rw [hdrop]; exact List.cons_ne_nil _ _)
          simp only [hdrop, List.head_cons] at this
          simpa using this
        subst hy
        rw [hdrop] at hsplit
        have e : (String.mk (x :: tl)) = ⟨x :: (tl.takeWhile (fun ch => decide (ch ≠ ')')) ++
            ')' :: rest)⟩ := by rw [hsplit]
        rw [e]
        refine loadLine_header_at st x _ rest ?_ htake ?_
        · rw [hsplit]; exact hparen
        · rw [hsplit]; exact hlen
/-! ## The claims -/

/-- C2: on a reachable store whose current class has the mapping `m`, the entries of `m` are in
strictly ascending key order and `toString` returns the reference rendering of the class name and
`m` (header line, brace line, the entries joined by comma and newline, closing brace without a
newline); any other store with the same current class and the same mapping for it renders the
same text, whatever its other classes hold. -/
theorem toString_reference [Streamable T] (s : UFOArray T) (m : StdMap T)
    (hr : Reachable s) (hm : getAllByClass s.class_name s = .ok m) :
    StdMap.Sorted m ∧
    toString s = .ok (renderRef s.class_name m) ∧
    ∀ s' : UFOArray T, s'.class_name = s.class_name →
      getAllByClass s.class_name s' = .ok m → toString s' = toString s := by
  have hf := getAllByClass_eq_ok.1 hm
  refine ⟨hr.dataWF.2 _ (StdMap.find_some_mem hf), toString_of_find hf, ?_⟩
  intro s' hc hm'
  have hf' := getAllByClass_eq_ok.1 hm'
  rw [← hc] at hf'
  rw [toString_of_find hf, toString_of_find hf', hc]

/-- C2, at the scenario of the spec: the `Animals` store is reachable, its current class maps
`cat` to 4 and `dog` to 3, and `toString` gives the text of the spec. -/
theorem toString_reference_witness :
    Reachable animals ∧
    getAllByClass animals.class_name animals = .ok [("cat", "4"), ("dog", "3")] ∧
    toString animals = .ok "(Animals)\n\x7b\n\t\"cat\": 4,\n\t\"dog\": 3\n\x7d" :=
  ⟨.add _ _ (.add _ _ (.setClassName _ .new)), by decide,
    (toString_reference animals [("cat", "4"), ("dog", "3")]
      (.add _ _ (.add _ _ (.setClassName _ .new))) (by decide)).2.1.trans (by decide)⟩

/-- C5: for a class name without a node in the store, `getAllByClass`, `getFirstByClass` and
`getLastByClass` throw `std::runtime_error` (NotFound) and `getByIndexAndClass` throws
`std::out_of_range` (IndexOutOfRange) at every index; none of them returns a value. -/
theorem missing_class_errors (s : UFOArray T) (c : String)
    (h : StdMap.find s.data c = none) :
    getAllByClass c s = .error (.runtime_error "Класс не найден") ∧
    getFirstByClass c s = .error (.runtime_error "Нет элементов для извлечения") ∧
    getLastByClass c s = .error (.runtime_error "Нет элементов для извлечения") ∧
    ∀ index : Nat, getByIndexAndClass c index s
      = .error (.out_of_range "Индекс вне диапазона или класс не найден") := by
  simp [getAllByClass, getFirstByClass, getLastByClass, getByIndexAndClass, h]

/-- C5, at the `Animals` store and the class name `Plants`. -/
theorem missing_class_errors_witness :
    StdMap.find animals.data "Plants" = none ∧
    getAllByClass "Plants" animals = .error (.runtime_error "Класс не найден") ∧
    getByIndexAndClass "Plants" 0 animals
      = .error (.out_of_range "Индекс вне диапазона или класс не найден") :=
  ⟨by decide, (missing_class_errors animals "Plants" (by decide)).1,
    (missing_class_errors animals "Plants" (by decide)).2.2.2 0⟩

/-- C9 as stated fails: on a freshly created store `toString` throws `std::out_of_range`, the
exception class of `getByIndexAndClass`, and not the `std::runtime_error` that `getAllByClass`
throws for the same absent class. -/
theorem toString_fresh_not_runtime_error :
    toString (UFOArray.new : UFOArray String) = .error (.out_of_range "map::at") ∧
    getAllByClass "" (UFOArray.new : UFOArray String)
      = .error (.runtime_error "Класс не найден") ∧
    ¬ ∃ what, toString (UFOArray.new : UFOArray String) = .error (.runtime_error what) := by
  refine ⟨by decide, by decide, ?_⟩
  rintro ⟨what, h⟩
  have h2 : toString (UFOArray.new : UFOArray String) = .error (.out_of_range "map::at") := by
    decide
  rw [h2] at h
  cases h

/-- C9, amended: whenever the current class has no node in the store, `toString` throws the
`std::out_of_range` of the checked map lookup; so it does on a freshly created store and after
`setClassName c` for a name `c` without a node. -/
theorem toString_absent_out_of_range [Streamable T] (s : UFOArray T)
    (h : StdMap.find s.data s.class_name = none) :
    toString s = .error (.out_of_range "map::at") ∧
    (∀ e, toString s = .error e → e.isOutOfRange = true ∧ e.isRuntimeError = false) ∧
    toString (UFOArray.new : UFOArray T) = .error (.out_of_range "map::at") ∧
    ∀ (c : String) (s0 : UFOArray T), StdMap.find s0.data c = none →
      toString (setClassName c s0) = .error (.out_of_range "map::at") := by
  have key : ∀ s1 : UFOArray T, StdMap.find s1.data s1.class_name = none →
      toString s1 = .error (.out_of_range "map::at") := by
    intro s1 h1
    simp [toString, StdMap.at, h1, bind, Except.bind]
  refine ⟨key s h, ?_, key _ rfl, fun c s0 h0 => key _ h0⟩
  intro e he
  rw [key s h] at he
  cases he
  exact ⟨rfl, rfl⟩

/-- C9 amended, at the `Animals` store after `setClassName "Plants"`. -/
theorem toString_absent_out_of_range_witness :
    StdMap.find (setClassName "Plants" animals).data (setClassName "Plants" animals).class_name
      = none ∧
    toString (setClassName "Plants" animals) = .error (.out_of_range "map::at") :=
  ⟨by decide, (toString_absent_out_of_range (setClassName "Plants" animals) (by decide)).1⟩

/-- C10: for every file text and every two stores, `load` succeeds on both and leaves the same
class-to-mapping contents, which are the contents that loading the text into an empty store
gives; only `class_name`, which `load` does not touch, is taken from the store. -/
theorem load_replaces [Streamable T] (text : String) (s1 s2 : UFOArray T) :
    ∃ d : StdMap (StdMap T),
      load (some text) s1 = .ok { data := d, class_name := s1.class_name } ∧
      load (some text) s2 = .ok { data := d, class_name := s2.class_name } ∧
      load (some text) (UFOArray.new : UFOArray T) = .ok { data := d, class_name := "" } := by
  obtain ⟨st, h, h1⟩ := load_eq text s1
  obtain ⟨st2, h', h2⟩ := load_eq text s2
  obtain ⟨st3, h'', h3⟩ := load_eq text (UFOArray.new : UFOArray T)
  rw [h] at h' h''
  cases h'
  cases h''
  exact ⟨st.1, h1, h2, h3⟩

/-- C3: in every reachable store and every class, the keys seen through `getByIndexAndClass` are
strictly ascending in the index: of two entries the one at the smaller index has the smaller key,
and conversely the entry with the smaller key sits at the smaller index, whatever the insertion
order was. The mapping `getAllByClass` returns is sorted and lists the entries in this index
order, and `toString` of the class renders that same list. -/
theorem sorted_order [Streamable T] (s : UFOArray T) (hr : Reachable s) (c : String) :
    (∀ (i j : Nat) (p q : String × T),
      getByIndexAndClass c i s = .ok p → getByIndexAndClass c j s = .ok q →
      (i < j ↔ less p.1 q.1 = true)) ∧
    ∀ m : StdMap T, getAllByClass c s = .ok m →
      StdMap.Sorted m ∧
      (∀ (i : Nat) (p : String × T), getByIndexAndClass c i s = .ok p ↔ m[i]? = some p) ∧
      toString (setClassName c s) = .ok (renderRef c m) := by
  constructor
  · intro i j p q hp hq
    obtain ⟨m, hm, hp⟩ := getByIndexAndClass_eq_ok.1 hp
    obtain ⟨m', hm', hq⟩ := getByIndexAndClass_eq_ok.1 hq
    rw [hm] at hm'
    cases hm'
    exact StdMap.sorted_get_less_iff (hr.dataWF.2 _ (StdMap.find_some_mem hm)) hp hq
  · intro m hm
    have hf := getAllByClass_eq_ok.1 hm
    refine ⟨hr.dataWF.2 _ (StdMap.find_some_mem hf), ?_, ?_⟩
    · intro i p
      rw [getByIndexAndClass_eq_ok]
      constructor
      · rintro ⟨m', hm', hp⟩
        rw [hf] at hm'
        cases hm'
        exact hp
      · intro hp
        exact ⟨m, hf, hp⟩
    · exact toString_of_find (s := setClassName c s) hf

/-- C3, at the store built by inserting `dog` before `cat`: `cat` is at index 0, `dog` at index
1, and index 0 is before index 1 exactly because `cat` is the smaller key. -/
theorem sorted_order_witness :
    Reachable animalsRev ∧
    getByIndexAndClass "Animals" 0 animalsRev = .ok ("cat", "4") ∧
    getByIndexAndClass "Animals" 1 animalsRev = .ok ("dog", "3") ∧
    (0 < 1 ↔ less "cat" "dog" = true) :=
  ⟨.add _ _ (.add _ _ (.setClassName _ .new)), by decide, by decide,
    (sorted_order animalsRev (.add _ _ (.add _ _ (.setClassName _ .new))) "Animals").1
      0 1 ("cat", "4") ("dog", "3") (by decide) (by decide)⟩

/-- C4: on every reachable store, after `add(k, v1)` followed by `add(k, v2)` the current class
has exactly one entry with key `k`, its value is `v2`, and the class has as many entries as after
the first `add` alone. -/
theorem add_overwrites [Streamable T] (s : UFOArray T) (hr : Reachable s) (k : String)
    (v1 v2 : T) :
    ∃ m1 m2 : StdMap T,
      getAllByClass s.class_name (add k v1 s) = .ok m1 ∧
      getAllByClass s.class_name (add k v2 (add k v1 s)) = .ok m2 ∧
      m2.filter (fun p => p.1 = k) = [(k, v2)] ∧
      StdMap.find m2 k = some v2 ∧
      m2.length = m1.length := by
  have hs1 : StdMap.Sorted ((StdMap.index s.data s.class_name).assign k v1) :=
    StdMap.sorted_assign (sorted_index hr.dataWF _) k v1
  have hs2 := StdMap.sorted_assign hs1 k v2
  have hf2 := StdMap.find_assign_self ((StdMap.index s.data s.class_name).assign k v1) k v2
  refine ⟨(StdMap.index s.data s.class_name).assign k v1,
    ((StdMap.index s.data s.class_name).assign k v1).assign k v2, ?_, ?_, ?_, hf2, ?_⟩
  · exact getAllByClass_eq_ok.2 (find_add_self s k v1)
  · have h := find_add_self (add k v1 s) k v2
    rw [index_add_self] at h
    exact getAllByClass_eq_ok.2 h
  · exact StdMap.sorted_filter_key hs2 hf2
  · rw [StdMap.length_assign hs1, StdMap.find_assign_self]
    rfl

/-- C4, at the `Animals` store: adding `cat` twice, with 5 and then 6, leaves three entries
before and after the second `add`, one of them for `cat`, with value 6. -/
theorem add_overwrites_witness :
    Reachable animals ∧
    getAllByClass "Animals" (add "cat" "6" (add "cat" "5" animals))
      = .ok [("cat", "6"), ("dog", "3")] ∧
    ∃ m1 m2 : StdMap String,
      getAllByClass animals.class_name (add "cat" "5" animals) = .ok m1 ∧
      getAllByClass animals.class_name (add "cat" "6" (add "cat" "5" animals)) = .ok m2 ∧
      m2.filter (fun p => p.1 = "cat") = [("cat", "6")] ∧
      StdMap.find m2 "cat" = some "6" ∧
      m2.length = m1.length :=
  ⟨.add _ _ (.add _ _ (.setClassName _ .new)), by decide,
    add_overwrites animals (.add _ _ (.add _ _ (.setClassName _ .new))) "cat" "5" "6"⟩

/-- C7: on every reachable store, `getFirstByClass` and `getLastByClass` throw
`std::runtime_error` (NotFound) exactly when the class is absent or empty; otherwise they return
entries of the class, the first with the smallest key and the last with the largest key, which are
the entries `getByIndexAndClass` returns at positions 0 and size - 1. -/
theorem first_last [Streamable T] (s : UFOArray T) (hr : Reachable s) (c : String) :
    (getFirstByClass c s = .error (.runtime_error "Нет элементов для извлечения") ↔
      (StdMap.find s.data c = none ∨ StdMap.find s.data c = some [])) ∧
    (getLastByClass c s = .error (.runtime_error "Нет элементов для извлечения") ↔
      (StdMap.find s.data c = none ∨ StdMap.find s.data c = some [])) ∧
    ∀ m : StdMap T, getAllByClass c s = .ok m → m ≠ [] →
      ∃ p q : String × T,
        getFirstByClass c s = .ok p ∧ getLastByClass c s = .ok q ∧ p ∈ m ∧ q ∈ m ∧
        (∀ r ∈ m, r = p ∨ less p.1 r.1 = true) ∧
        (∀ r ∈ m, r = q ∨ less r.1 q.1 = true) ∧
        getByIndexAndClass c 0 s = .ok p ∧
        getByIndexAndClass c (m.length - 1) s = .ok q := by
  refine ⟨?_, ?_, ?_⟩
  · unfold getFirstByClass
    cases h : StdMap.find s.data c with
    | none => simp
    | some m => cases m <;> simp
  · unfold getLastByClass
    cases h : StdMap.find s.data c with
    | none => simp
    | some m => cases m <;> simp
  · intro m hm hne
    have hf := getAllByClass_eq_ok.1 hm
    have hsorted : StdMap.Sorted m := hr.dataWF.2 _ (StdMap.find_some_mem hf)
    cases m with
    | nil => exact absurd rfl hne
    | cons x xs =>
      have hx := List.pairwise_cons.1 hsorted
      refine ⟨x, (x :: xs).getLast hne, ?_, ?_, List.mem_cons_self _ _, List.getLast_mem _,
        ?_, StdMap.getLast_mem_max hsorted hne, ?_, ?_⟩
      · simp [getFirstByClass, hf]
      · simp [getLastByClass, hf]
      · intro r hrm
        rcases List.mem_cons.1 hrm with e | hrm
        · exact Or.inl e
        · exact Or.inr (hx.1 r hrm)
      · exact getByIndexAndClass_eq_ok.2 ⟨_, hf, by simp⟩
      · refine getByIndexAndClass_eq_ok.2 ⟨_, hf, ?_⟩
        rw [List.getLast_eq_getElem]
        simp

/-- C7, at the scenario of the spec: the first entry of `Animals` is `cat` with 4 and the last
is `dog` with 3. -/
theorem first_last_witness :
    Reachable animals ∧
    getFirstByClass "Animals" animals = .ok ("cat", "4") ∧
    getLastByClass "Animals" animals = .ok ("dog", "3") ∧
    (getFirstByClass "Plants" animals = .error (.runtime_error "Нет элементов для извлечения") ↔
      (StdMap.find animals.data "Plants" = none ∨ StdMap.find animals.data "Plants" = some [])) :=
  ⟨.add _ _ (.add _ _ (.setClassName _ .new)), by decide, by decide,
    (first_last animals (.add _ _ (.add _ _ (.setClassName _ .new))) "Plants").1⟩

/-- C8: on every reachable store, `getByIndexAndClass` throws `std::out_of_range`
(IndexOutOfRange) exactly when the class is absent or the index is at least the size of the
class; otherwise it returns the entry at that zero-based position of the class's entries in
ascending key order (the entry that has exactly `index` entries with smaller keys), and that
entry is a member of the mapping `getAllByClass` returns. -/
theorem index_lookup [Streamable T] (s : UFOArray T) (hr : Reachable s) (c : String)
    (index : Nat) :
    (getByIndexAndClass c index s
        = .error (.out_of_range "Индекс вне диапазона или класс не найден") ↔
      (StdMap.find s.data c = none ∨
        ∃ m, StdMap.find s.data c = some m ∧ m.length ≤ index)) ∧
    ∀ m : StdMap T, getAllByClass c s = .ok m → index < m.length →
      ∃ p : String × T,
        getByIndexAndClass c index s = .ok p ∧ m[index]? = some p ∧ p ∈ m ∧
        StdMap.Sorted m ∧ (m.filter (fun r => less r.1 p.1)).length = index := by
  constructor
  · unfold getByIndexAndClass
    cases h : StdMap.find s.data c with
    | none => simp
    | some m =>
      cases h2 : m[index]? with
      | none =>
        have := List.getElem?_eq_none_iff.1 h2
        simp [h2, this]
      | some p =>
        obtain ⟨hlt, _⟩ := List.getElem?_eq_some_iff.1 h2
        simp [h2, hlt]
  · intro m hm hlt
    have hf := getAllByClass_eq_ok.1 hm
    have hsorted : StdMap.Sorted m := hr.dataWF.2 _ (StdMap.find_some_mem hf)
    have hp : m[index]? = some m[index] := List.getElem?_eq_getElem hlt
    exact ⟨m[index], getByIndexAndClass_eq_ok.2 ⟨m, hf, hp⟩, hp, List.getElem?_mem hp,
      hsorted, StdMap.sorted_get_rank hsorted hp⟩

/-- C8, at the scenario of the spec: index 1 of `Animals` is `dog` with 3, and index 2 is out of
range. -/
theorem index_lookup_witness :
    Reachable animals ∧
    getByIndexAndClass "Animals" 1 animals = .ok ("dog", "3") ∧
    getByIndexAndClass "Animals" 2 animals
      = .error (.out_of_range "Индекс вне диапазона или класс не найден") :=
  ⟨.add _ _ (.add _ _ (.setClassName _ .new)), by decide,
    (index_lookup animals (.add _ _ (.add _ _ (.setClassName _ .new))) "Animals" 2).1.2
      (Or.inr ⟨[("cat", "4"), ("dog", "3")], by decide, by decide⟩)⟩

/-- C1 as stated fails. With the empty class name, the saved text loads into a store without any
class, so `getAllByClass` throws although the original class had the entry `cat`. With the class
`Animals`, `getAllByClass` succeeds after the round trip but returns other keys than the original
mapping. -/
theorem round_trip_fails :
    getAllByClass "" unnamed = .ok [("cat", "4")] ∧
    saveThenLoad unnamed = .ok { data := [], class_name := "" } ∧
    (saveThenLoad unnamed >>= getAllByClass "") = .error (.runtime_error "Класс не найден") ∧
    getAllByClass "Animals" animals = .ok [("cat", "4"), ("dog", "3")] ∧
    (saveThenLoad animals >>= getAllByClass "Animals") ≠ getAllByClass "Animals" animals := by
  decide

/-- C1, amended: for every store whose current class has a non-empty name free of colon,
parentheses and newline and holds at least one entry, with keys and value texts free of colon,
parentheses and newline, `save` to a new file followed by `load` into a fresh store succeeds, and
in the loaded store `getAllByClass` of that name succeeds with a non-empty mapping while every
other name is absent. Nothing is said about the keys and values of the loaded mapping. -/
theorem save_load_keeps_class [Streamable T] (s : UFOArray T) (m : StdMap T)
    (hm : getAllByClass s.class_name s = .ok m) (hne : m ≠ [])
    (hc : s.class_name ≠ "") (hcp : Plain s.class_name)
    (hp : ∀ p ∈ m, Plain p.1 ∧ Plain (Streamable.write p.2)) :
    ∃ (s' : UFOArray T) (m' : StdMap T),
      saveThenLoad s = .ok s' ∧ getAllByClass s.class_name s' = .ok m' ∧ m' ≠ [] ∧
      ∀ c', c' ≠ s.class_name →
        getAllByClass c' s' = .error (.runtime_error "Класс не найден") := by
  obtain ⟨s', m', h1, h2, h3, h4⟩ :=
    saveThenLoad_class s m (getAllByClass_eq_ok.1 hm) hne hc hcp hp
  refine ⟨s', m', h1, getAllByClass_eq_ok.2 h2, h3, ?_⟩
  intro c' hc'
  simp [getAllByClass, h4 c' hc']

/-- C1 amended, at the scenario of the spec: the hypotheses hold for the `Animals` store, and after
the round trip the class `Animals` is present and no other. -/
theorem save_load_keeps_class_witness :
    getAllByClass animals.class_name animals = .ok [("cat", "4"), ("dog", "3")] ∧
    animals.class_name ≠ "" ∧ Plain animals.class_name ∧
    (∀ p ∈ [("cat", "4"), ("dog", "3")], Plain p.1 ∧ Plain (Streamable.write p.2)) ∧
    ∃ (s' : UFOArray String) (m' : StdMap String),
      saveThenLoad animals = .ok s' ∧ getAllByClass animals.class_name s' = .ok m' ∧ m' ≠ [] ∧
      ∀ c', c' ≠ animals.class_name →
        getAllByClass c' s' = .error (.runtime_error "Класс не найден") :=
  ⟨by decide, by decide, by decide, by decide,
    save_load_keeps_class animals [("cat", "4"), ("dog", "3")] (by decide) (by decide)
      (by decide) (by decide) (by decide)⟩

/-- C6 as stated fails. When one of the two classes has the empty name, the loaded store has no
class of that name. With the classes `Trees` and `Pets`, both are present after loading but
neither mapping equals the original one. -/
theorem append_accumulation_fails :
    getAllByClass "" twoClassesUnnamed = .ok [("oak", "7")] ∧
    (saveTwoThenLoad "" "Pets" twoClassesUnnamed >>= getAllByClass "")
      = .error (.runtime_error "Класс не найден") ∧
    getAllByClass "Trees" twoClasses = .ok [("oak", "7")] ∧
    getAllByClass "Pets" twoClasses = .ok [("dog", "3")] ∧
    (saveTwoThenLoad "Trees" "Pets" twoClasses >>= getAllByClass "Trees")
      ≠ getAllByClass "Trees" twoClasses ∧
    (saveTwoThenLoad "Trees" "Pets" twoClasses >>= getAllByClass "Pets")
      ≠ getAllByClass "Pets" twoClasses := by
  decide

/-- C6, amended: for every store and two different non-empty class names free of colon,
parentheses and newline, each with at least one entry and with keys and value texts free of
colon, parentheses and newline, saving the first and then the second class in append mode to a new
file and loading that file into a fresh store succeeds, and the loaded store contains both
classes, each with a non-empty mapping, and no other class. Nothing is said about the keys and
values of the loaded mappings. -/
theorem append_keeps_both_classes [Streamable T] (s : UFOArray T) (c1 c2 : String)
    (m1 m2 : StdMap T) (hne : c1 ≠ c2)
    (hm1 : getAllByClass c1 s = .ok m1) (hm2 : getAllByClass c2 s = .ok m2)
    (hne1 : m1 ≠ []) (hne2 : m2 ≠ [])
    (hc1 : c1 ≠ "") (hc2 : c2 ≠ "") (hcp1 : Plain c1) (hcp2 : Plain c2)
    (hp1 : ∀ p ∈ m1, Plain p.1 ∧ Plain (Streamable.write p.2))
    (hp2 : ∀ p ∈ m2, Plain p.1 ∧ Plain (Streamable.write p.2)) :
    ∃ (s' : UFOArray T) (m1' m2' : StdMap T),
      saveTwoThenLoad c1 c2 s = .ok s' ∧
      getAllByClass c1 s' = .ok m1' ∧ m1' ≠ [] ∧
      getAllByClass c2 s' = .ok m2' ∧ m2' ≠ [] ∧
      ∀ c', c' ≠ c1 → c' ≠ c2 →
        getAllByClass c' s' = .error (.runtime_error "Класс не найден") := by
  obtain ⟨s', m1', m2', h0, h1, h2, h3, h4, h5⟩ :=
    saveTwoThenLoad_classes s c1 c2 m1 m2 hne (getAllByClass_eq_ok.1 hm1)
      (getAllByClass_eq_ok.1 hm2) hne1 hne2 hc1 hc2 hcp1 hcp2 hp1 hp2
  refine ⟨s', m1', m2', h0, getAllByClass_eq_ok.2 h1, h2, getAllByClass_eq_ok.2 h3, h4, ?_⟩
  intro c' hc1' hc2'
  simp [getAllByClass, h5 c' hc1' hc2']

/-- C6 amended, at the store with the classes `Trees` and `Pets`. -/
theorem append_keeps_both_classes_witness :
    "Trees" ≠ "Pets" ∧
    getAllByClass "Trees" twoClasses = .ok [("oak", "7")] ∧
    getAllByClass "Pets" twoClasses = .ok [("dog", "3")] ∧
    Plain "Trees" ∧ Plain "Pets" ∧
    ∃ (s' : UFOArray String) (m1' m2' : StdMap String),
      saveTwoThenLoad "Trees" "Pets" twoClasses = .ok s' ∧
      getAllByClass "Trees" s' = .ok m1' ∧ m1' ≠ [] ∧
      getAllByClass "Pets" s' = .ok m2' ∧ m2' ≠ [] ∧
      ∀ c', c' ≠ "Trees" → c' ≠ "Pets" →
        getAllByClass c' s' = .error (.runtime_error "Класс не найден") :=
  ⟨by decide, by decide, by decide, by decide, by decide,
    append_keeps_both_classes twoClasses "Trees" "Pets" [("oak", "7")] [("dog", "3")]
      (by decide) (by decide) (by decide) (by decide) (by decide) (by decide) (by decide)
      (by decide) (by decide) (by decide) (by decide)⟩

/-- C12: `setClassName` only changes the current class: the nested map is the same as before, so
every `getAllByClass` gives what it gave before (no class of the new name is created), and the
class exists after the next `add`, holding the added entry. -/
theorem setClassName_frame (s : UFOArray T) (name : String) :
    (setClassName name s).data = s.data ∧
    (setClassName name s).class_name = name ∧
    (∀ c, getAllByClass c (setClassName name s) = getAllByClass c s) ∧
    ∀ (k : String) (v : T), ∃ m,
      getAllByClass name (add k v (setClassName name s)) = .ok m ∧
      StdMap.find m k = some v := by
  refine ⟨rfl, rfl, fun _ => rfl, ?_⟩
  intro k v
  exact ⟨_, getAllByClass_eq_ok.2 (find_add_self (setClassName name s) k v),
    StdMap.find_assign_self _ _ _⟩

/-- C13: `add(k, v)` keeps the current class name, leaves the mapping of every other class as it
was (also as nodes of the outer map), and in the current class leaves every entry with another
key as it was; the current class then maps `k` to `v`. -/
theorem add_frame (s : UFOArray T) (k : String) (v : T) :
    (add k v s).class_name = s.class_name ∧
    (∀ c', c' ≠ s.class_name → getAllByClass c' (add k v s) = getAllByClass c' s) ∧
    (add k v s).data.filter (fun p => p.1 ≠ s.class_name)
      = s.data.filter (fun p => p.1 ≠ s.class_name) ∧
    ∃ m, getAllByClass s.class_name (add k v s) = .ok m ∧
      StdMap.find m k = some v ∧
      (∀ k', k' ≠ k → StdMap.find m k' = lookup s.data s.class_name k') ∧
      m.filter (fun p => p.1 ≠ k)
        = (StdMap.index s.data s.class_name).filter (fun p => p.1 ≠ k) := by
  refine ⟨rfl, ?_, StdMap.filter_assign _ _ _, ?_⟩
  · intro c' hc'
    unfold getAllByClass
    have : StdMap.find (add k v s).data c' = StdMap.find s.data c' :=
      StdMap.find_assign_ne _ _ (fun e => hc' e.symm)
    rw [this]
  · refine ⟨_, getAllByClass_eq_ok.2 (find_add_self s k v), StdMap.find_assign_self _ _ _, ?_,
      StdMap.filter_assign _ _ _⟩
    intro k' hk'
    rw [StdMap.find_assign_ne _ _ (fun e => hk' e.symm), find_index]

/-- C18: the three `substr` calls of `load` never throw. A line with a parenthesis has at least
one character, so `substr(1, ...)` starts inside it, and the colon offset plus one is at most the
length. When the closing parenthesis is missing or at offset 0, or the colon is at an offset below
3, the wrapped length is clamped and the result is the rest of the line from offset 1. So every
loop iteration returns a state and `load` of an opened file always returns. -/
theorem load_substr_total [Streamable T] (line : String) :
    (find line '(' ≠ npos → 1 ≤ line.data.length ∧
      ∃ name, substr line 1 (subSizeT (find line ')') 1) = .ok name) ∧
    (find line ':' ≠ npos → find line ':' + 1 ≤ line.data.length ∧
      (∃ key, substr line 1 (subSizeT (find line ':') 3) = .ok key) ∧
      ∃ rest, substr line (find line ':' + 1) npos = .ok rest) ∧
    (line.data.length < npos → find line '(' ≠ npos →
      find line ')' = npos ∨ find line ')' = 0 →
      substr line 1 (subSizeT (find line ')') 1) = .ok ⟨line.data.drop 1⟩) ∧
    (line.data.length < npos → find line ':' < 3 →
      substr line 1 (subSizeT (find line ':') 3) = .ok ⟨line.data.drop 1⟩) ∧
    (∀ st : StdMap (StdMap T) × String, ∃ st', loadLine st line = .ok st') ∧
    ∀ (text : String) (s : UFOArray T), ∃ s', load (some text) s = .ok s' := by
  refine ⟨?_, ?_, ?_, ?_, fun st => loadLine_ok st line, ?_⟩
  · intro h
    have hlt := find_lt h
    exact ⟨by omega, _, substr_ok _ (by omega)⟩
  · intro h
    have hlt := find_lt h
    exact ⟨by omega, ⟨_, substr_ok _ (by omega)⟩, ⟨_, substr_ok _ (by omega)⟩⟩
  · intro hlen h hc
    have hlt := find_lt h
    rw [npos_eq] at hlen
    rw [substr_ok _ (by omega : 1 ≤ line.data.length)]
    have hle : line.data.length - 1 ≤ subSizeT (find line ')') 1 := by
      rcases hc with e | e <;> rw [e] <;> simp only [subSizeT, npos_eq] <;> omega
    rw [Nat.min_eq_right hle, List.take_of_length_le (by simp)]
  · intro hlen h
    have hne : find line ':' ≠ npos := by rw [npos_eq]; omega
    have hlt := find_lt hne
    rw [npos_eq] at hlen
    rw [substr_ok _ (by omega : 1 ≤ line.data.length)]
    have hle : line.data.length - 1 ≤ subSizeT (find line ':') 3 := by
      simp only [subSizeT]
      omega
    rw [Nat.min_eq_right hle, List.take_of_length_le (by simp)]
  · intro text s
    obtain ⟨st, _, h⟩ := load_eq text s
    exact ⟨_, h⟩

/-- C18, at lines where the length wraps: in `)(` the closing parenthesis is at offset 0 and the
class name read is the rest `(`; in `:ab` the colon is at offset 0 and the key read is `ab`. -/
theorem load_substr_total_witness :
    substr ")(" 1 (subSizeT (find ")(" ')') 1) = .ok "(" ∧
    substr ":ab" 1 (subSizeT (find ":ab" ':') 3) = .ok "ab" :=
  ⟨((load_substr_total ")(" : _ ∧ _ ∧ _ ∧ _ ∧
      (∀ st : StdMap (StdMap String) × String, ∃ st', loadLine st ")(" = .ok st') ∧ _).2.2.1
      (by decide) (by decide) (Or.inr (by decide))),
   ((load_substr_total ":ab" : _ ∧ _ ∧ _ ∧ _ ∧
      (∀ st : StdMap (StdMap String) × String, ∃ st', loadLine st ":ab" = .ok st') ∧ _).2.2.2.1
      (by decide) (by decide))⟩

/-- C19: in every reachable store each class has at least one entry, so `getAllByClass` never
returns an empty mapping and `getFirstByClass` and `getLastByClass` throw exactly when the class
is absent; and after a `load` every class of the store has a non-empty name. -/
theorem no_empty_class [Streamable T] (s : UFOArray T) (hr : Reachable s) :
    (∀ p ∈ s.data, p.2 ≠ []) ∧
    (∀ c m, getAllByClass c s = .ok m → m ≠ []) ∧
    (∀ c, getFirstByClass c s = .error (.runtime_error "Нет элементов для извлечения") ↔
      StdMap.find s.data c = none) ∧
    (∀ c, getLastByClass c s = .error (.runtime_error "Нет элементов для извлечения") ↔
      StdMap.find s.data c = none) ∧
    ∀ (file : Option String) (s' : UFOArray T), load file s = .ok s' →
      (∀ p ∈ s'.data, p.1 ≠ "") ∧
      getAllByClass "" s' = .error (.runtime_error "Класс не найден") := by
  have hne := hr.classes_ne_nil
  have hfind : ∀ c m, StdMap.find s.data c = some m → m ≠ [] :=
    fun c m h => hne _ (StdMap.find_some_mem h)
  refine ⟨hne, fun c m h => hfind c m (getAllByClass_eq_ok.1 h), ?_, ?_, ?_⟩
  · intro c
    unfold getFirstByClass
    cases h : StdMap.find s.data c with
    | none => simp
    | some m =>
      cases m with
      | nil => exact absurd rfl (hfind c _ h)
      | cons x xs => simp
  · intro c
    unfold getLastByClass
    cases h : StdMap.find s.data c with
    | none => simp
    | some m =>
      cases m with
      | nil => exact absurd rfl (hfind c _ h)
      | cons x xs => simp
  · intro file s' hl
    have hnames : ∀ p ∈ s'.data, p.1 ≠ "" := fun p hp => (load_classes hl p hp).1
    refine ⟨hnames, ?_⟩
    simp [getAllByClass, find_eq_none_of_names hnames]

/-- C19, at the `Animals` store: its class is not empty, and a file with a block for the empty
class name loads into a store without classes. -/
theorem no_empty_class_witness :
    Reachable animals ∧
    getAllByClass "Animals" animals = .ok [("cat", "4"), ("dog", "3")] ∧
    load (some "()\n\x7b\n\t\"cat\": 4\n\x7d\n") animals
      = .ok { data := [], class_name := "Animals" } ∧
    [("cat", "4"), ("dog", "3")] ≠ ([] : StdMap String) :=
  ⟨.add _ _ (.add _ _ (.setClassName _ .new)), by decide, by decide,
    (no_empty_class animals (.add _ _ (.add _ _ (.setClassName _ .new)))).2.1
      "Animals" [("cat", "4"), ("dog", "3")] (by decide)⟩

/-- C20: `load` keeps `class_name` (a `load` that cannot open the file throws and changes
nothing), and no loaded class has the empty name; so on a freshly constructed store, whose
current class is the empty string, `toString` right after `load` throws for every file text. -/
theorem load_keeps_class_name [Streamable T] (text : String) (s : UFOArray T) :
    (∃ s', load (some text) s = .ok s' ∧ s'.class_name = s.class_name) ∧
    load none s = .error (.runtime_error "Невозможно открыть файл для чтения") ∧
    ∃ s', load (some text) (UFOArray.new : UFOArray T) = .ok s' ∧
      s'.class_name = "" ∧ StdMap.find s'.data "" = none ∧
      toString s' = .error (.out_of_range "map::at") := by
  refine ⟨?_, rfl, ?_⟩
  · obtain ⟨st, _, h⟩ := load_eq text s
    exact ⟨_, h, rfl⟩
  · obtain ⟨st, _, h⟩ := load_eq text (UFOArray.new : UFOArray T)
    have hnone : StdMap.find st.1 "" = none :=
      find_eq_none_of_names (fun p hp => (load_classes h p hp).1)
    refine ⟨_, h, rfl, hnone, ?_⟩
    simp only [toString, StdMap.at, bind, Except.bind]
    have : StdMap.find st.1 (UFOArray.new : UFOArray T).class_name = none := hnone
    rw [this]

/-- C17: a line with neither a parenthesis nor a colon leaves the nested map and the parse class
as they are, whatever they are. So inserting such a line (or, read backwards, deleting it) at a
line boundary of a file text changes neither the final state of the loop of `load` nor the store
`load` returns, and `load` returns a store with and without it. -/
theorem other_lines_ignored [Streamable T] (pre line post : List Char)
    (hpre : pre = [] ∨ ∃ a, pre = a ++ ['\n'])
    (hline : ∀ ch ∈ line, ch ≠ '(' ∧ ch ≠ ':' ∧ ch ≠ '\n') :
    (∀ st : StdMap (StdMap T) × String, loadLine st ⟨line⟩ = .ok st) ∧
    loadLines (([] : StdMap (StdMap T)), "") (getlines ⟨pre ++ (line ++ '\n' :: post)⟩)
      = loadLines (([] : StdMap (StdMap T)), "") (getlines ⟨pre ++ post⟩) ∧
    ∀ s : UFOArray T,
      load (some ⟨pre ++ (line ++ '\n' :: post)⟩) s = load (some ⟨pre ++ post⟩) s ∧
      ∃ s', load (some ⟨pre ++ post⟩) s = .ok s' := by
  have hskip : ∀ st : StdMap (StdMap T) × String, loadLine st ⟨line⟩ = .ok st := fun st =>
    loadLine_skip st ⟨line⟩ (find_mk_none (fun ch h => (hline ch h).1))
      (find_mk_none (fun ch h => (hline ch h).2.1))
  have hlines : getlines ⟨pre ++ (line ++ '\n' :: post)⟩
      = (getlinesAux [] pre).map String.mk ++
        String.mk line :: (getlinesAux [] post).map String.mk := by
    rw [getlines_eq]
    show (getlinesAux [] (pre ++ (line ++ '\n' :: post))).map String.mk = _
    rw [getlinesAux_boundary pre _ hpre,
      getlinesAux_line line [] post (fun ch h => (hline ch h).2.2)]
    simp
  have hlines' : getlines ⟨pre ++ post⟩
      = (getlinesAux [] pre).map String.mk ++ (getlinesAux [] post).map String.mk := by
    rw [getlines_eq]
    show (getlinesAux [] (pre ++ post)).map String.mk = _
    rw [getlinesAux_boundary pre _ hpre]
    simp
  have heq : loadLines (([] : StdMap (StdMap T)), "") (getlines ⟨pre ++ (line ++ '\n' :: post)⟩)
      = loadLines (([] : StdMap (StdMap T)), "") (getlines ⟨pre ++ post⟩) := by
    rw [hlines, hlines', loadLines_insert_skip _ _ _ _ hskip]
  refine ⟨hskip, heq, ?_⟩
  intro s
  constructor
  · simp only [load, heq]
  · obtain ⟨st, _, h⟩ := load_eq ⟨pre ++ post⟩ s
    exact ⟨_, h⟩

/-- C17, at the saved text of a one-entry class: with or without the line of the opening brace
the file loads into the same store. -/
theorem other_lines_ignored_witness :
    load (some "(Animals)\n\x7b\n\t\"cat\": 4\n\x7d\n") (UFOArray.new : UFOArray String)
      = load (some "(Animals)\n\t\"cat\": 4\n\x7d\n") UFOArray.new :=
  ((other_lines_ignored "(Animals)\n".data "\x7b".data "\t\"cat\": 4\n\x7d\n".data
    (Or.inr ⟨"(Animals)".data, by decide⟩) (by decide)).2.2
      (UFOArray.new : UFOArray String)).1

/-- C14 as stated fails: in the line ` (A)` the opening parenthesis is at offset 1, and the parse
class becomes `(A`, not the text `A` between the parentheses; the data line after it is stored
under the class `(A`. -/
theorem header_not_at_offset_zero :
    loadLine (([] : StdMap (StdMap String)), "") " (A)" = .ok ([], "(A") ∧
    loadLines (([] : StdMap (StdMap String)), "") [" (A)", "\t\"\": 7"]
      = .ok ([("(A", [("", "7")])], "(A") ∧
    "(A" ≠ "A" :=
  ⟨rfl, rfl, by decide⟩

/-- C14, amended: for every line that contains an opening parenthesis (and is shorter than
`npos`), wherever that parenthesis is, the parse class becomes `headerName` of the line: the
whole rest of the line from offset 1 when the line starts with a closing parenthesis (the length
wraps, so `)(A)` gives `(A)`) or has no closing parenthesis, and otherwise the characters from
offset 1 up to the first closing parenthesis. That is the text strictly between the two
parentheses when the line starts with the opening one. The nested map is not changed by a header
line, and every line without an opening parenthesis keeps the parse class. -/
theorem header_parsing [Streamable T] (st : StdMap (StdMap T) × String) :
    (∀ line : List Char, '(' ∈ line → line.length < npos →
      loadLine st ⟨line⟩ = .ok (st.1, ⟨headerName line⟩)) ∧
    (∀ (x : Char) (name rest : List Char), '(' ∈ x :: (name ++ ')' :: rest) →
      (∀ ch ∈ x :: name, ch ≠ ')') → (x :: (name ++ ')' :: rest)).length < npos →
      loadLine st ⟨x :: (name ++ ')' :: rest)⟩ = .ok (st.1, ⟨name⟩)) ∧
    (∀ (name rest : List Char), (∀ ch ∈ name, ch ≠ ')') →
      ('(' :: (name ++ ')' :: rest)).length < npos →
      loadLine st ⟨'(' :: (name ++ ')' :: rest)⟩ = .ok (st.1, ⟨name⟩)) ∧
    (∀ (x : Char) (tl : List Char), '(' ∈ x :: tl → (∀ ch ∈ tl, ch ≠ ')') →
      (x :: tl).length < npos → loadLine st ⟨x :: tl⟩ = .ok (st.1, ⟨tl⟩)) ∧
    (∀ tl : List Char, '(' ∈ ')' :: tl → (')' :: tl).length < npos →
      loadLine st ⟨')' :: tl⟩ = .ok (st.1, ⟨tl⟩)) ∧
    ∀ line : String, find line '(' = npos → ∃ d', loadLine st line = .ok (d', st.2) := by
  refine ⟨fun line h1 h2 => loadLine_headerName st line h1 h2,
    fun x name rest h1 h2 h3 => loadLine_header_at st x name rest h1 h2 h3, ?_,
    fun x tl h1 h2 h3 => loadLine_header_rest st x tl h1 h2 h3,
    fun tl h1 h2 => loadLine_header_close st tl h1 h2,
    fun line h => loadLine_keeps_class st line h⟩
  intro name rest h2 h3
  refine loadLine_header_at st '(' name rest (List.mem_cons_self _ _) ?_ h3
  intro ch hch
  rcases List.mem_cons.1 hch with e | hch
  · subst e; decide
  · exact h2 ch hch

/-- C14 amended, at three header lines: `(Animals)` makes `Animals` the parse class; `)(A)`,
which starts with a closing parenthesis, makes `(A)` the parse class; and for ` (A)`, with the
opening parenthesis at offset 1, `headerName` is `(A`. -/
theorem header_parsing_witness :
    loadLine (([] : StdMap (StdMap String)), "") "(Animals)" = .ok ([], "Animals") ∧
    loadLine (([] : StdMap (StdMap String)), "") ")(A)" = .ok ([], "(A)") ∧
    loadLine (([] : StdMap (StdMap String)), "") " (A)" = .ok ([], ⟨headerName " (A)".data⟩) ∧
    headerName " (A)".data = "(A".data ∧
    headerName ")(A)".data = "(A)".data :=
  ⟨(header_parsing (([] : StdMap (StdMap String)), "")).2.2.1 "Animals".data [] (by decide)
      (by decide),
    (header_parsing (([] : StdMap (StdMap String)), "")).2.2.2.2.1 "(A)".data (by decide)
      (by decide),
    (header_parsing (([] : StdMap (StdMap String)), "")).1 " (A)".data (by decide) (by decide),
    by decide, by decide⟩

/-- C11: for every file text, `load` returns a store in which a class is present exactly when
some data line of the file was read under it, the keys of a class are the keys of all its data
lines, whichever block they stand in, and the value of a key is the value of the last data line
of that class with that key in file order. Class names, keys and values are the ones `load` takes
from the lines. For the file `mergeText`, with two blocks for `A` that both have the key of `cat`,
the value from the second block is the one stored. -/
theorem load_merges_last_wins [Streamable T] (text : String) (s : UFOArray T) :
    (∃ s', load (some text) s = .ok s' ∧
      (∀ c k, lookup s'.data c k
        = lastValue (dataEntries "" (getlines text) : List (String × String × T)) c k) ∧
      (∀ c, (∃ m, getAllByClass c s' = .ok m) ↔
        ∃ e ∈ (dataEntries "" (getlines text) : List (String × String × T)), e.1 = c) ∧
      ∀ c m, getAllByClass c s' = .ok m → ∀ k, (∃ v, StdMap.find m k = some v) ↔
        ∃ e ∈ (dataEntries "" (getlines text) : List (String × String × T)),
          e.1 = c ∧ e.2.1 = k) ∧
    load (some mergeText) (UFOArray.new : UFOArray String)
      = .ok { data := [("A", [("\"ca", "2"), ("\"do", "3")]), ("B", [("\"ca", "5")])],
              class_name := "" } := by
  refine ⟨?_, by decide⟩
  obtain ⟨d', cur', hl, hv, hc⟩ :=
    loadLines_lastValue (getlines text) ([] : StdMap (StdMap T)) ""
  have hlookup : ∀ c k, lookup d' c k
      = lastValue (dataEntries "" (getlines text) : List (String × String × T)) c k := by
    intro c k
    rw [hv c k]
    cases lastValue (dataEntries "" (getlines text) : List (String × String × T)) c k <;> rfl
  refine ⟨{ s with data := d' }, ?_, hlookup, ?_, ?_⟩
  · simp only [load, hl, bind, Except.bind, pure, Except.pure]
  · intro c
    have := hc c
    simp only [StdMap.find, exists_false, or_false, reduceCtorEq] at this
    simpa [getAllByClass_eq_ok] using this
  · intro c m hm k
    have hf : StdMap.find d' c = some m := getAllByClass_eq_ok.1 hm
    have hk : lookup d' c k = StdMap.find m k := by simp [lookup, hf]
    rw [← lastValue_isSome_iff, ← hlookup, hk]

/-- C15 fails on the code: the line `toString` renders for the key `cat` is read back under the
class `Animals` with the key `"ca` (the opening quote and the key without its last character),
and a one-character key is read back as the quote alone. -/
theorem key_extraction_off_by_one :
    renderEntry ("cat", "4") = "\t\"cat\": 4" ∧
    find "\t\"cat\": 4" ':' = 6 ∧
    substr "\t\"cat\": 4" 1 (subSizeT 6 3) = .ok "\"ca" ∧
    loadLine (([] : StdMap (StdMap String)), "Animals") (renderEntry ("cat", "4"))
      = .ok ([("Animals", [("\"ca", "4")])], "Animals") ∧
    loadLine (([] : StdMap (StdMap String)), "Animals") (renderEntry ("x", "4"))
      = .ok ([("Animals", [("\"", "4")])], "Animals") ∧
    "\"ca" ≠ "cat" :=
  ⟨by decide, by decide, by decide, rfl, rfl, by decide⟩

/-- C16 fails on the code for `T = std::string`: in the text saved for the `Animals` store the
line of `cat`, which is not the last entry, ends with the separating comma, the remainder after
its colon is ` 4,`, and the value read from it is `4,`; the value of the last entry `dog` is read
back as `3`. -/
theorem value_extraction_keeps_comma :
    save (some "") true animals
      = .ok "(Animals)\n\x7b\n\t\"cat\": 4,\n\t\"dog\": 3\n\x7d\n" ∧
    getlines "(Animals)\n\x7b\n\t\"cat\": 4,\n\t\"dog\": 3\n\x7d\n"
      = ["(Animals)", "\x7b", "\t\"cat\": 4,", "\t\"dog\": 3", "\x7d"] ∧
    substr "\t\"cat\": 4," (find "\t\"cat\": 4," ':' + 1) npos = .ok " 4," ∧
    (Streamable.read " 4," : String) = "4," ∧
    (Streamable.read " 3" : String) = "3" ∧
    loadLine (([] : StdMap (StdMap String)), "Animals") "\t\"cat\": 4,"
      = .ok ([("Animals", [("\"ca", "4,")])], "Animals") ∧
    "4," ≠ "4" :=
  ⟨by decide, by decide, by decide, by decide, by decide, rfl, by decide⟩
end UFO
